import Mathlib

/-!
Verification development for the lex-pr-runner core: the deterministic leveled
topological-sort engine (`src/legacy/py-prototype/toposort.py`) and the minimal
fallback plan validator (`src/lex_pr/plan_schema.py`, `_fallback_validate`).

The embedding is shallow: Python dicts keyed by strings become association
lists (lookup and update on the first matching key, exactly like a dict whose
keys are unique), Python's `sorted` over strings becomes an insertion sort by
code-point order, and the two Python exceptions (`KeyError` for an unknown
dependency, `CycleError`) become an `Except` error type.
-/

/-! ## String ordering (Python `sorted` compares strings by code point) -/

/-- Lexicographic `≤` on character lists by code point, the order Python's
`sorted` uses for strings. -/
def charsLe : List Char → List Char → Bool
  | [], _ => true
  | _ :: _, [] => false
  | a :: as, b :: bs =>
    if a.toNat < b.toNat then true
    else if b.toNat < a.toNat then false
    else charsLe as bs

/-- `strLeB a b` is Python's `a <= b` on strings. -/
def strLeB (a b : String) : Bool := charsLe a.data b.data

/-- The sort performed by Python's `sorted(...)` on a list of strings. -/
def sortStr (l : List String) : List String :=
  l.insertionSort (fun a b => strLeB a b = true)

/-! ## The merge-order engine (`toposort.py`) -/

/-- An item as consumed by `levels`: the fields `_name_of` and the graph
builder read from the item dict.  `deps` models `item.get("deps", []) or []`
(absent, `None` and `[]` all collapse to `[]`). -/
structure Item where
  name : Option String := none
  repo : String
  branch : String
  deps : List String := []
deriving DecidableEq, Repr

/-- `_name_of`: `item.get("name") or f"{item['repo']}@{item['branch']}"`.
Python's `or` takes the derived name when `name` is absent or the empty
string (both are falsy). -/
def nameOf (it : Item) : String :=
  match it.name with
  | some s => if s = "" then it.repo ++ "@" ++ it.branch else s
  | none => it.repo ++ "@" ++ it.branch

/-- The errors `levels` can raise: `KeyError(f"unknown dep '{d}' for item '{me}'")`
and `CycleError("dependency cycle detected")`. -/
inductive TopoErr where
  | unknownDep (me d : String)
  | cycle
deriving DecidableEq, Repr

/-- First-occurrence deduplication: the key order of the Python dict
`{n: 0 for n in names}` (insertion keeps the first occurrence). -/
def firstDedup : List String → List String
  | [] => []
  | x :: xs => x :: (firstDedup xs).filter (fun y => ¬ y = x)

/-- Lookup in an association list modelling a Python dict (first matching key,
like a dict whose keys are unique). -/
def lookupD (m : List (String × Int)) (k : String) : Option Int :=
  match m with
  | [] => none
  | p :: ps => if p.1 = k then some p.2 else lookupD ps k

/-- `m[k] = v` on the association-list dict: replace the value at the first
occurrence of `k` (a no-op when `k` is absent; the Python code only ever
assigns to keys that exist). -/
def setD (m : List (String × Int)) (k : String) (v : Int) : List (String × Int) :=
  match m with
  | [] => []
  | p :: ps => if p.1 = k then (k, v) :: ps else p :: setD ps k v

/-- `in_deg[me] += 1` (every `me` incremented by the source is a key). -/
def bumpD (m : List (String × Int)) (k : String) : List (String × Int) :=
  match lookupD m k with
  | some v => setD m k (v + 1)
  | none => m

/-- The graph state built by the first loop of `levels`: the `in_deg` dict and
the `children` defaultdict (total function defaulting to `[]`). -/
structure Graph where
  inDeg : List (String × Int)
  children : String → List String

/-- `children[d].append(me)`. -/
def addChild (f : String → List String) (d me : String) : String → List String :=
  fun x => if x = d then f x ++ [me] else f x

/-- The inner loop `for d in it.get("deps", []) or []`: check membership in
`name_set`, raise `KeyError` on the first unknown dep, otherwise record the
edge (`children[d].append(me)`; `in_deg[me] += 1`). -/
def addDeps (nameSet : List String) (me : String) : Graph → List String → Except TopoErr Graph
  | g, [] => .ok g
  | g, d :: ds =>
    if d ∈ nameSet then
      addDeps nameSet me { inDeg := bumpD g.inDeg me, children := addChild g.children d me } ds
    else .error (.unknownDep me d)

/-- The outer graph-building loop `for it in items`. -/
def buildGraph (nameSet : List String) : Graph → List Item → Except TopoErr Graph
  | g, [] => .ok g
  | g, it :: its =>
    match addDeps nameSet (nameOf it) g it.deps with
    | .error e => .error e
    | .ok g' => buildGraph nameSet g' its

/-- `in_deg = {n: 0 for n in names}`. -/
def initInDeg (names : List String) : List (String × Int) :=
  (firstDedup names).map (fun n => (n, 0))

/-- One child visit inside the level loop: `in_deg[c] -= 1; if in_deg[c] == 0:
q.append(c)`.  The state is the `in_deg` dict together with the queue being
refilled for the next level. -/
def stepChild (st : List (String × Int) × List String) (c : String) :
    List (String × Int) × List String :=
  match lookupD st.1 c with
  | none => st
  | some v => (setD st.1 c (v - 1), if v - 1 = 0 then st.2 ++ [c] else st.2)

/-- Processing one emitted level: `for n in this_level: for c in
sorted(children.get(n, [])): ...` starting from a cleared queue. -/
def processLevel (children : String → List String) (lvl : List String)
    (m : List (String × Int)) : List (String × Int) × List String :=
  lvl.foldl (fun st n => (sortStr (children n)).foldl stepChild st) (m, [])

/-- The `while q:` loop of Kahn's algorithm, by fuel.  `levels` passes one
more unit of fuel than the total pending in-degree plus the queue length, and
that measure strictly decreases each iteration (see `stepLemma` and
`kahn_main`), so the zero-fuel branch is never taken on the states `levels`
reaches.  Returns the accumulated levels together with the final `in_deg`
dict. -/
def kahnLoopF (children : String → List String) :
    Nat → List (String × Int) → List String → List (List String) × List (String × Int)
  | 0, m, _ => ([], m)
  | fuel + 1, m, q =>
    if q = [] then ([], m)
    else
      let lvl := sortStr q
      let pr := processLevel children lvl m
      let rest := kahnLoopF children fuel pr.1 pr.2
      (lvl :: rest.1, rest.2)

/-- Sum of the positive parts of the in-degree dict; used only to size the
fuel of `kahnLoopF`. -/
def sumToNat (m : List (String × Int)) : Nat :=
  (m.map (fun p => p.2.toNat)).sum

/-- `levels(items)`: deterministic topo levels of item names
(`toposort.levels`).  Returns the level list, or the error the Python code
raises (`KeyError` for an unknown dep, `CycleError` for a residual cycle). -/
def levels (items : List Item) : Except TopoErr (List (List String)) :=
  let names := items.map nameOf
  let nameSet := firstDedup names
  match buildGraph nameSet { inDeg := initInDeg names, children := fun _ => [] } items with
  | .error e => .error e
  | .ok g =>
    let q0 := sortStr ((g.inDeg.filter (fun p => p.2 = 0)).map Prod.fst)
    let pr := kahnLoopF g.children (sumToNat g.inDeg + q0.length + 1) g.inDeg q0
    if pr.2.any (fun p => 0 < p.2) then .error .cycle else .ok pr.1

/-! ## Specification-side notions for the engine -/

/-- The first unresolved dependency in item-then-dep scan order, with the
resolved name of the referencing item. -/
def firstBadDep (nameSet : List String) : List Item → Option (String × String)
  | [] => none
  | it :: its =>
    match it.deps.find? (fun d => decide (d ∉ nameSet)) with
    | some d => some (nameOf it, d)
    | none => firstBadDep nameSet its

/-- All dependency occurrences attached to a resolved name `n` (concatenated
over every item whose resolved name is `n`). -/
def depsOf (items : List Item) (n : String) : List String :=
  (items.filter (fun it => nameOf it == n)).flatMap Item.deps

/-- The dependency edge `u → v`: some item resolving to `v` lists `u` in its
`deps` (v depends on u). -/
def edgeR (items : List Item) (u v : String) : Prop :=
  ∃ it ∈ items, nameOf it = v ∧ u ∈ it.deps

/-- `ChainTo items n v`: there is a dependency chain of `n` edges ending at
`v` (`u₀ → u₁ → ⋯ → uₙ = v`). -/
inductive ChainTo (items : List Item) : Nat → String → Prop where
  | zero (v : String) : ChainTo items 0 v
  | succ {u v : String} {n : Nat} (h : edgeR items u v) (hc : ChainTo items n u) :
      ChainTo items (n + 1) v

/-- `v` has topological depth `i`: the longest dependency chain ending at `v`
has exactly `i` edges. -/
def depthIs (items : List Item) (v : String) (i : Nat) : Prop :=
  ChainTo items i v ∧ ∀ j, ChainTo items j v → j ≤ i

/-- The names emittable within `k` rounds: `emitSet 0 = ∅` and a name enters
`emitSet (k+1)` when all its dependency occurrences lie in `emitSet k`. -/
def emitSet (items : List Item) : Nat → List String
  | 0 => []
  | k + 1 =>
    (firstDedup (items.map nameOf)).filter
      (fun v => (depsOf items v).all (fun d => decide (d ∈ emitSet items k)))

/-- The names newly emittable at round `k`: the level-`k` members. -/
def diffAt (items : List Item) (k : Nat) : List String :=
  (emitSet items (k + 1)).filter (fun v => decide (v ∉ emitSet items k))

/-- The number of dependency occurrences of `n` still outside `emitSet k`:
the value of `in_deg[n]` once the levels `0 … k-1` have been processed. -/
def inCnt (items : List Item) (k : Nat) (n : String) : Nat :=
  (depsOf items n).countP (fun d => decide (d ∉ emitSet items k))

/-- The loop invariant of `levels`: at the start of round `k`, the dict keys
are exactly the resolved names (first occurrence order), `in_deg` holds the
not-yet-emitted dependency counts, and the queue holds round `k`'s names. -/
def KahnInv (items : List Item) (k : Nat) (m : List (String × Int)) (q : List String) : Prop :=
  m.map Prod.fst = firstDedup (items.map nameOf) ∧
  (∀ n ∈ firstDedup (items.map nameOf), lookupD m n = some ((inCnt items k n : Int))) ∧
  q.Nodup ∧
  (∀ x, x ∈ q ↔ x ∈ diffAt items k)

/-! ## The fallback plan validator (`plan_schema._fallback_validate`) -/

/-- A JSON-like value, the input shape `_fallback_validate` scrutinises.
Objects are association lists (Python dicts parsed from JSON: string keys,
first-key lookup). -/
inductive J where
  | null
  | bool (b : Bool)
  | num (n : Int)
  | str (s : String)
  | arr (xs : List J)
  | obj (kvs : List (String × J))

/-- Python dict lookup `kvs.get(k)` / `kvs[k]`. -/
def getJ (kvs : List (String × J)) (k : String) : Option J :=
  match kvs with
  | [] => none
  | p :: ps => if p.1 = k then some p.2 else getJ ps k

/-- `k in kvs`. -/
def hasKey (kvs : List (String × J)) (k : String) : Bool := (getJ kvs k).isSome

/-- The characters Python's `str.strip()` removes: the `str.isspace()` set,
i.e. code points 09–0D, 1C–1F, 20, 85 (NEL), A0 (NBSP), 1680, the space
separators 2000–200A, the line/paragraph separators 2028/2029, 202F, 205F
and 3000 (Unicode 6.3+, so 180E is not included). -/
def isPySpace (c : Char) : Bool :=
  decide ((0x09 ≤ c.toNat ∧ c.toNat ≤ 0x0d) ∨
    (0x1c ≤ c.toNat ∧ c.toNat ≤ 0x1f) ∨
    c.toNat = 0x20 ∨ c.toNat = 0x85 ∨ c.toNat = 0xa0 ∨ c.toNat = 0x1680 ∨
    (0x2000 ≤ c.toNat ∧ c.toNat ≤ 0x200a) ∨
    c.toNat = 0x2028 ∨ c.toNat = 0x2029 ∨ c.toNat = 0x202f ∨
    c.toNat = 0x205f ∨ c.toNat = 0x3000)

/-- `not s.strip()`: the string is empty or whitespace-only. -/
def blankStr (s : String) : Bool := s.data.all isPySpace

/-- `req in it and isinstance(it[req], str) and it[req].strip()`:
the field is present, a string, and non-blank. -/
def requiredNonEmptyStr (kvs : List (String × J)) (k : String) : Bool :=
  match getJ kvs k with
  | some (J.str s) => ¬ blankStr s
  | _ => false

/-- `isinstance(x, str)` for an optional field value. -/
def isStrOpt : Option J → Bool
  | some (J.str _) => true
  | _ => false

/-- `isinstance(it["deps"], list) and all(isinstance(d, str) and d.strip()
for d in it["deps"])`. -/
def depsFieldOk : Option J → Bool
  | some (J.arr ds) =>
    ds.all (fun d => match d with
      | J.str s => ¬ blankStr s
      | _ => false)
  | _ => false

/-- `isinstance(g["env"], dict)` with all values strings (JSON object keys
are strings already). -/
def envFieldOk : Option J → Bool
  | some (J.obj kvs) =>
    kvs.all (fun p => match p.2 with
      | J.str _ => true
      | _ => false)
  | _ => false

/-- The per-gate checks of `_fallback_validate`, from gate index `gidx`,
returning the first error. -/
def checkGatesFrom (idx : Nat) : Nat → List J → Option String
  | _, [] => none
  | gidx, g :: gs =>
    match g with
    | J.obj gkvs =>
      if ¬ requiredNonEmptyStr gkvs "name" then
        some ("items/" ++ toString idx ++ "/gates/" ++ toString gidx ++ "/name: required non-empty string")
      else if ¬ requiredNonEmptyStr gkvs "run" then
        some ("items/" ++ toString idx ++ "/gates/" ++ toString gidx ++ "/run: required non-empty string")
      else if hasKey gkvs "cwd" ∧ ¬ isStrOpt (getJ gkvs "cwd") then
        some ("items/" ++ toString idx ++ "/gates/" ++ toString gidx ++ "/cwd: expected string")
      else if hasKey gkvs "env" ∧ ¬ envFieldOk (getJ gkvs "env") then
        some ("items/" ++ toString idx ++ "/gates/" ++ toString gidx ++ "/env: expected object of string->string")
      else checkGatesFrom idx (gidx + 1) gs
    | _ => some ("items/" ++ toString idx ++ "/gates/" ++ toString gidx ++ ": expected object")

/-- The `gates` field check of one item. -/
def gatesFieldCheck (idx : Nat) (kvs : List (String × J)) : Option String :=
  if hasKey kvs "gates" then
    match getJ kvs "gates" with
    | some (J.arr gs) => checkGatesFrom idx 0 gs
    | _ => some ("items/" ++ toString idx ++ "/gates: expected array")
  else none

/-- `it.get("name") or f"{it['repo']}@{it['branch']}"` for a validated item:
when the duplicate check runs, `name` is absent or a string, and `repo` and
`branch` are strings, so string extraction with default `""` is exact. -/
def resolvedNameJ (kvs : List (String × J)) : String :=
  let repoBranch :=
    (match getJ kvs "repo" with | some (J.str s) => s | _ => "") ++ "@" ++
    (match getJ kvs "branch" with | some (J.str s) => s | _ => "")
  match getJ kvs "name" with
  | some (J.str s) => if s = "" then repoBranch else s
  | _ => repoBranch

/-- The resolved name of a (validated) item value. -/
def resolvedOfJ : J → String
  | J.obj kvs => resolvedNameJ kvs
  | _ => ""

/-- The per-item loop of `_fallback_validate` from index `idx`: the first
error, or the collected `item_names`. -/
def collectItems : Nat → List J → Except String (List String)
  | _, [] => .ok []
  | idx, it :: rest =>
    match it with
    | J.obj kvs =>
      if ¬ requiredNonEmptyStr kvs "repo" then
        .error ("items/" ++ toString idx ++ "/repo: required non-empty string")
      else if ¬ requiredNonEmptyStr kvs "branch" then
        .error ("items/" ++ toString idx ++ "/branch: required non-empty string")
      else if hasKey kvs "name" ∧ ¬ isStrOpt (getJ kvs "name") then
        .error ("items/" ++ toString idx ++ "/name: expected string")
      else if hasKey kvs "deps" ∧ ¬ depsFieldOk (getJ kvs "deps") then
        .error ("items/" ++ toString idx ++ "/deps: expected array of strings")
      else
        match gatesFieldCheck idx kvs with
        | some e => .error e
        | none =>
          match collectItems (idx + 1) rest with
          | .error e => .error e
          | .ok names => .ok (resolvedNameJ kvs :: names)
    | _ => .error ("items/" ++ toString idx ++ ": expected object")

/-- `len(set(item_names)) != len(item_names)`. -/
def hasDupStr : List String → Bool
  | [] => false
  | x :: xs => decide (x ∈ xs) || hasDupStr xs

/-- `_fallback_validate(data)`, returning `(ok, error_message)`. -/
def fallbackValidate (data : J) : Bool × Option String :=
  match data with
  | J.obj kvs =>
    if ¬ requiredNonEmptyStr kvs "target" then
      (false, some "target: required non-empty string")
    else
      match getJ kvs "items" with
      | some (J.arr its) =>
        match collectItems 0 its with
        | .error e => (false, some e)
        | .ok names =>
          if hasDupStr names then
            (false, some "items: duplicate item names (explicit or derived)")
          else (true, none)
      | _ => (false, some "items: required array")
  | _ => (false, some "<root>: expected object")

/-! ## Lemmas: the string order and `sortStr` -/

theorem charsLe_trans : ∀ a b c, charsLe a b = true → charsLe b c = true → charsLe a c = true
  | [], _, _, _, _ => rfl
  | _ :: _, [], _, h, _ => by simp [charsLe] at h
  | _ :: _, _ :: _, [], _, h => by simp [charsLe] at h
  | a :: as, b :: bs, c :: cs, h1, h2 => by
    simp only [charsLe] at h1 h2 ⊢
    split_ifs at h1 h2 ⊢ <;> first
      | rfl
      | omega
      | exact charsLe_trans as bs cs h1 h2

theorem charsLe_total : ∀ a b, charsLe a b = true ∨ charsLe b a = true
  | [], _ => .inl rfl
  | _ :: _, [] => .inr rfl
  | a :: as, b :: bs => by
    simp only [charsLe]
    split_ifs <;> first
      | exact .inl rfl
      | exact .inr rfl
      | omega
      | exact charsLe_total as bs

theorem charsLe_antisymm : ∀ a b, charsLe a b = true → charsLe b a = true → a = b
  | [], [], _, _ => rfl
  | [], _ :: _, _, h => by simp [charsLe] at h
  | _ :: _, [], h, _ => by simp [charsLe] at h
  | a :: as, b :: bs, h1, h2 => by
    simp only [charsLe] at h1 h2
    by_cases hab : a.toNat < b.toNat
    · rw [if_neg (by omega), if_pos hab] at h2
      exact absurd h2 Bool.false_ne_true
    · by_cases hba : b.toNat < a.toNat
      · rw [if_neg hab, if_pos hba] at h1
        exact absurd h1 Bool.false_ne_true
      · rw [if_neg hab, if_neg hba] at h1
        rw [if_neg hba, if_neg hab] at h2
        have hc : a = b := Char.ext (UInt32.ext (by
          simp only [Char.toNat] at hab hba
          omega))
        rw [hc, charsLe_antisymm as bs h1 h2]

instance : IsTrans String (fun a b => strLeB a b = true) :=
  ⟨fun a b c h1 h2 => charsLe_trans a.data b.data c.data h1 h2⟩

instance : IsTotal String (fun a b => strLeB a b = true) :=
  ⟨fun a b => charsLe_total a.data b.data⟩

instance : IsAntisymm String (fun a b => strLeB a b = true) :=
  ⟨fun a b h1 h2 => by
    have := charsLe_antisymm a.data b.data h1 h2
    ext1
    exact this⟩

theorem sortStr_perm (l : List String) : (sortStr l).Perm l :=
  List.perm_insertionSort _ l

theorem sortStr_sorted (l : List String) :
    List.Sorted (fun a b => strLeB a b = true) (sortStr l) :=
  List.sorted_insertionSort _ l

theorem sortStr_mem {l : List String} {x : String} : x ∈ sortStr l ↔ x ∈ l :=
  (sortStr_perm l).mem_iff

theorem sortStr_nodup {l : List String} (h : l.Nodup) : (sortStr l).Nodup :=
  (sortStr_perm l).nodup_iff.2 h

theorem sortStr_length (l : List String) : (sortStr l).length = l.length :=
  (sortStr_perm l).length_eq

theorem sortStr_eq_of_perm {l l' : List String} (h : l.Perm l') : sortStr l = sortStr l' :=
  List.eq_of_perm_of_sorted ((sortStr_perm l).trans (h.trans (sortStr_perm l').symm))
    (sortStr_sorted l) (sortStr_sorted l')

theorem sortStr_eq_nil_iff {l : List String} : sortStr l = [] ↔ l = [] := by
  constructor
  · intro h
    have := sortStr_length l
    rw [h] at this
    exact List.length_eq_zero.mp this.symm
  · intro h
    subst h
    rfl

theorem sortStr_count (l : List String) (x : String) : (sortStr l).count x = l.count x :=
  (sortStr_perm l).count_eq x

/-! ## Lemmas: `firstDedup` -/

theorem firstDedup_mem {x : String} : ∀ {l : List String}, x ∈ firstDedup l ↔ x ∈ l
  | [] => Iff.rfl
  | y :: ys => by
    simp only [firstDedup, List.mem_cons, List.mem_filter, decide_not, Bool.not_eq_eq_eq_not,
      Bool.not_true, decide_eq_false_iff_not]
    by_cases hxy : x = y
    · simp [hxy]
    · simp [hxy, firstDedup_mem]

theorem firstDedup_nodup : ∀ l : List String, (firstDedup l).Nodup
  | [] => List.nodup_nil
  | y :: ys => by
    simp only [firstDedup]
    refine List.Nodup.cons ?_ (List.Nodup.filter _ (firstDedup_nodup ys))
    intro hy
    have := (List.mem_filter.mp hy).2
    simp at this

/-! ## Lemmas: the association-list dict -/

theorem lookupD_setD_ne {m : List (String × Int)} {k x : String} {v : Int} (h : x ≠ k) :
    lookupD (setD m k v) x = lookupD m x := by
  induction m with
  | nil => rfl
  | cons p ps ih =>
    by_cases hp : p.1 = k
    · subst hp
      simp only [setD, if_pos rfl, lookupD]
      rw [if_neg (fun hc => h hc.symm), if_neg (fun hc => h hc.symm)]
    · simp only [setD, if_neg hp, lookupD]
      by_cases hx : p.1 = x
      · rw [if_pos hx, if_pos hx]
      · rw [if_neg hx, if_neg hx]
        exact ih

theorem lookupD_setD_self {m : List (String × Int)} {k : String} {v0 v : Int}
    (h : lookupD m k = some v0) : lookupD (setD m k v) k = some v := by
  induction m with
  | nil => simp [lookupD] at h
  | cons p ps ih =>
    by_cases hp : p.1 = k
    · simp [setD, hp, lookupD]
    · simp only [lookupD, if_neg hp] at h
      simp [setD, hp, lookupD, ih h]

theorem setD_absent {m : List (String × Int)} {k : String} {v : Int}
    (h : lookupD m k = none) : setD m k v = m := by
  induction m with
  | nil => rfl
  | cons p ps ih =>
    by_cases hp : p.1 = k
    · simp [lookupD, hp] at h
    · simp only [lookupD, if_neg hp] at h
      simp [setD, hp, ih h]

theorem map_fst_setD (m : List (String × Int)) (k : String) (v : Int) :
    (setD m k v).map Prod.fst = m.map Prod.fst := by
  induction m with
  | nil => rfl
  | cons p ps ih =>
    by_cases hp : p.1 = k
    · simp [setD, hp]
    · simp [setD, hp, ih]

theorem lookupD_isSome_iff_mem {m : List (String × Int)} {k : String} :
    (lookupD m k).isSome = true ↔ k ∈ m.map Prod.fst := by
  induction m with
  | nil => simp [lookupD]
  | cons p ps ih =>
    by_cases hp : p.1 = k
    · simp [lookupD, hp]
    · simp only [lookupD, if_neg hp, List.map_cons, List.mem_cons]
      rw [ih]
      constructor
      · exact fun h => .inr h
      · rintro (h | h)
        · exact absurd h.symm hp
        · exact h

theorem lookupD_eq_none_iff {m : List (String × Int)} {k : String} :
    lookupD m k = none ↔ k ∉ m.map Prod.fst := by
  rw [← lookupD_isSome_iff_mem]
  cases lookupD m k <;> simp

/-! ## Lemmas: one pass of child decrements (`stepChild` folded over a list) -/

theorem stepChild_none {m : List (String × Int)} {q : List String} {c : String}
    (h : lookupD m c = none) : stepChild (m, q) c = (m, q) := by
  simp [stepChild, h]

theorem stepChild_some {m : List (String × Int)} {q : List String} {c : String} {v : Int}
    (h : lookupD m c = some v) :
    stepChild (m, q) c = (setD m c (v - 1), if v - 1 = 0 then q ++ [c] else q) := by
  simp [stepChild, h]

/-- The net effect of visiting the child sequence `cs`: every present key is
decremented once per occurrence in `cs`, the keys are unchanged, and the queue
gains (exactly once, in some order) the keys whose stored value is positive
but at most their occurrence count — the keys whose count hits zero. -/
theorem foldStep : ∀ (cs : List String) (m : List (String × Int)) (q0 : List String),
    (∀ x, lookupD ((cs.foldl stepChild (m, q0)).1) x
        = (lookupD m x).map (fun v => v - (cs.count x : Int))) ∧
    ((cs.foldl stepChild (m, q0)).1.map Prod.fst = m.map Prod.fst) ∧
    ∃ nl, (cs.foldl stepChild (m, q0)).2 = q0 ++ nl ∧ nl.Nodup ∧
      (∀ x, x ∈ nl ↔ ∃ v, lookupD m x = some v ∧ 1 ≤ v ∧ v ≤ (cs.count x : Int))
  | [], m, q0 => by
    refine ⟨fun x => ?_, rfl, [], by simp, List.nodup_nil, fun x => ?_⟩
    · rcases h : lookupD m x with _ | v <;> simp [h]
    · simp only [List.not_mem_nil, false_iff]
      rintro ⟨v, _, hv1, hv2⟩
      simp only [List.count_nil, Nat.cast_zero] at hv2
      omega
  | c :: cs, m, q0 => by
    rw [List.foldl_cons]
    rcases hc : lookupD m c with _ | v
    · rw [stepChild_none hc]
      obtain ⟨ha, hb, nl, hq, hnd, hmem⟩ := foldStep cs m q0
      refine ⟨fun x => ?_, hb, nl, hq, hnd, fun x => ?_⟩
      · by_cases hx : x = c
        · subst hx
          rw [ha x, hc]
          simp
        · rw [ha x, List.count_cons_of_ne hx]
      · rw [hmem x]
        by_cases hx : x = c
        · subst hx
          simp [hc]
        · rw [List.count_cons_of_ne hx]
    · rw [stepChild_some hc]
      obtain ⟨ha, hb, nl, hq, hnd, hmem⟩ :=
        foldStep cs (setD m c (v - 1)) (if v - 1 = 0 then q0 ++ [c] else q0)
      have hlook1 : lookupD (setD m c (v - 1)) c = some (v - 1) := lookupD_setD_self hc
      refine ⟨fun x => ?_, ?_, (if v - 1 = 0 then [c] else []) ++ nl, ?_, ?_, fun x => ?_⟩
      · by_cases hx : x = c
        · subst hx
          rw [ha x, hlook1, hc, List.count_cons_self]
          simp only [Option.map_some']
          congr 1
          push_cast
          ring
        · rw [ha x, lookupD_setD_ne hx, List.count_cons_of_ne hx]
      · rw [hb, map_fst_setD]
      · rw [hq]
        by_cases hv : v - 1 = 0
        · rw [if_pos hv, if_pos hv]
          simp [List.append_assoc]
        · rw [if_neg hv, if_neg hv]
          simp
      · refine List.Nodup.append ?_ hnd ?_
        · split_ifs <;> simp
        · intro x hx1 hx2
          split_ifs at hx1 with hv
          · simp only [List.mem_singleton] at hx1
            subst hx1
            obtain ⟨w, hw, hw1, _⟩ := (hmem x).mp hx2
            rw [hlook1, hv] at hw
            cases hw
            omega
          · simp at hx1
      · rw [List.mem_append, hmem x]
        by_cases hx : x = c
        · subst hx
          rw [hlook1, List.count_cons_self]
          constructor
          · rintro (h1 | ⟨w, hw, hw1, hw2⟩)
            · split_ifs at h1 with hv
              · exact ⟨v, hc, by omega, by push_cast; omega⟩
              · simp at h1
            · cases hw
              exact ⟨v, hc, by omega, by push_cast at hw2 ⊢; omega⟩
          · rintro ⟨w, hw, hw1, hw2⟩
            rw [hc] at hw
            cases hw
            push_cast at hw2
            by_cases hv : v - 1 = 0
            · left
              simp [hv]
            · right
              exact ⟨v - 1, rfl, by omega, by omega⟩
        · rw [lookupD_setD_ne hx, List.count_cons_of_ne hx]
          constructor
          · rintro (h1 | h1)
            · split_ifs at h1 with hv
              · simp only [List.mem_singleton] at h1
                exact absurd h1 hx
              · simp at h1
            · exact h1
          · exact fun h1 => .inr h1

/-! ## Lemmas: counting helpers -/

theorem countP_split (q r : String → Bool) (l : List String) (p : String → Bool)
    (h : ∀ d ∈ l, (p d = true ↔ q d = true ∨ r d = true) ∧ ¬(q d = true ∧ r d = true)) :
    l.countP p = l.countP q + l.countP r := by
  induction l with
  | nil => rfl
  | cons a l ih =>
    rw [List.countP_cons, List.countP_cons, List.countP_cons,
      ih (fun d hd => h d (List.mem_cons_of_mem a hd))]
    obtain ⟨h1, h2⟩ := h a (List.mem_cons_self a l)
    by_cases hq : q a = true <;> by_cases hr : r a = true <;>
      simp only [hq, hr, if_true, if_false] <;> rcases hp : p a <;> simp_all <;> omega

theorem countP_mem_cons (n : String) (lvl : List String) (hn : n ∉ lvl) (l : List String) :
    l.countP (fun d => decide (d ∈ n :: lvl)) =
      l.count n + l.countP (fun d => decide (d ∈ lvl)) := by
  induction l with
  | nil => simp
  | cons a l ih =>
    rw [List.countP_cons, List.countP_cons, List.count_cons, ih]
    by_cases ha : a = n
    · subst ha
      have : a ∉ lvl := hn
      simp [this]
      omega
    · simp only [List.mem_cons, decide_eq_true_eq]
      have hban : (n == a) = false := by simp [Ne.symm ha]
      by_cases hl : a ∈ lvl <;> simp [ha, hl, hban] <;> omega

theorem sum_count_eq_countP_mem (l : List String) :
    ∀ lvl : List String, lvl.Nodup →
      (lvl.map (fun n => l.count n)).sum = l.countP (fun d => decide (d ∈ lvl))
  | [], _ => by simp
  | n :: lvl, hnd => by
    rw [List.map_cons, List.sum_cons,
      sum_count_eq_countP_mem l lvl (List.Nodup.of_cons hnd),
      countP_mem_cons n lvl (by simp at hnd; exact hnd.1)]

/-! ## Lemmas: graph building -/

theorem lookupD_bumpD (m : List (String × Int)) (k x : String) :
    lookupD (bumpD m k) x =
      if x = k then (lookupD m x).map (fun v => v + 1) else lookupD m x := by
  unfold bumpD
  rcases h : lookupD m k with _ | v
  · by_cases hx : x = k
    · subst hx
      rw [if_pos rfl, h]
      rfl
    · rw [if_neg hx]
  · by_cases hx : x = k
    · subst hx
      rw [if_pos rfl, lookupD_setD_self h, h]
      rfl
    · rw [if_neg hx, lookupD_setD_ne hx]

theorem map_fst_bumpD (m : List (String × Int)) (k : String) :
    (bumpD m k).map Prod.fst = m.map Prod.fst := by
  unfold bumpD
  rcases lookupD m k with _ | v
  · rfl
  · exact map_fst_setD m k _

/-- Successful `addDeps`: all deps resolve; the in-degree of `me` grows by the
number of deps, and `me` is appended to `children[d]` once per occurrence of
`d`. -/
theorem addDeps_ok (ns : List String) (me : String) :
    ∀ (ds : List String) (g : Graph), (∀ d ∈ ds, d ∈ ns) →
    ∃ g', addDeps ns me g ds = .ok g' ∧
      g'.inDeg.map Prod.fst = g.inDeg.map Prod.fst ∧
      (∀ x, lookupD g'.inDeg x =
        (lookupD g.inDeg x).map (fun v => v + if x = me then (ds.length : Int) else 0)) ∧
      (∀ x, g'.children x =
        g.children x ++ (ds.filter (fun y => y == x)).map (fun _ => me))
  | [], g, _ => by
    refine ⟨g, rfl, rfl, fun x => ?_, fun x => by simp⟩
    rcases lookupD g.inDeg x with _ | v
    · rfl
    · simp
  | d :: ds, g, h => by
    have hd : d ∈ ns := h d (List.mem_cons_self d ds)
    obtain ⟨g', h1, h2, h3, h4⟩ :=
      addDeps_ok ns me ds { inDeg := bumpD g.inDeg me, children := addChild g.children d me }
        (fun x hx => h x (List.mem_cons_of_mem d hx))
    refine ⟨g', ?_, ?_, fun x => ?_, fun x => ?_⟩
    · rw [addDeps, if_pos hd]
      exact h1
    · rw [h2]
      exact map_fst_bumpD g.inDeg me
    · rw [h3 x]
      simp only [lookupD_bumpD]
      by_cases hx : x = me
      · rw [if_pos hx, if_pos hx, if_pos hx]
        rcases lookupD g.inDeg x with _ | v
        · rfl
        · simp only [Option.map_some']
          congr 1
          simp only [List.length_cons]
          push_cast
          ring
      · rw [if_neg hx, if_neg hx, if_neg hx]
    · rw [h4 x]
      simp only [addChild, List.filter_cons]
      by_cases hx : d = x
      · subst hx
        simp [List.append_assoc]
      · have hbx : (d == x) = false := by simp [hx]
        have hxd : ¬ x = d := fun hc => hx hc.symm
        simp [hxd, hbx]

/-- `addDeps` raises `KeyError` on the first unresolved dep. -/
theorem addDeps_error (ns : List String) (me : String) :
    ∀ (ds : List String) (g : Graph) (d : String),
      ds.find? (fun d => decide (d ∉ ns)) = some d →
      addDeps ns me g ds = .error (.unknownDep me d)
  | [], _, _, h => by simp at h
  | d0 :: ds, g, d, h => by
    by_cases h0 : d0 ∈ ns
    · have hfd : (decide (d0 ∉ ns)) = false := by simp [h0]
      rw [List.find?_cons, hfd] at h
      rw [addDeps, if_pos h0]
      exact addDeps_error ns me ds _ d h
    · have hfd : (decide (d0 ∉ ns)) = true := by simp [h0]
      rw [List.find?_cons, hfd] at h
      have hd : d0 = d := by
        simp at h
        exact h
      subst hd
      rw [addDeps, if_neg h0]

/-- Successful graph build from a starting state: keys preserved, in-degrees
grown by each name's dependency-occurrence count, children extended by the
per-occurrence appends, in item order. -/
theorem buildGraph_ok (ns : List String) :
    ∀ (its : List Item) (g : Graph), (∀ it ∈ its, ∀ d ∈ it.deps, d ∈ ns) →
    ∃ g', buildGraph ns g its = .ok g' ∧
      g'.inDeg.map Prod.fst = g.inDeg.map Prod.fst ∧
      (∀ x, lookupD g'.inDeg x =
        (lookupD g.inDeg x).map (fun v => v + ((depsOf its x).length : Int))) ∧
      (∀ x, g'.children x =
        g.children x ++ its.flatMap (fun it => (it.deps.filter (fun y => y == x)).map (fun _ => nameOf it)))
  | [], g, _ => by
    refine ⟨g, rfl, rfl, fun x => ?_, fun x => by simp⟩
    rcases lookupD g.inDeg x with _ | v
    · rfl
    · simp [depsOf]
  | it :: its, g, h => by
    obtain ⟨g1, hb1, hk1, hl1, hc1⟩ :=
      addDeps_ok ns (nameOf it) it.deps g (h it (List.mem_cons_self it its))
    obtain ⟨g2, hb2, hk2, hl2, hc2⟩ :=
      buildGraph_ok ns its g1 (fun x hx => h x (List.mem_cons_of_mem it hx))
    refine ⟨g2, ?_, ?_, fun x => ?_, fun x => ?_⟩
    · rw [buildGraph, hb1]
      exact hb2
    · rw [hk2, hk1]
    · rw [hl2 x, hl1 x]
      have hdep : depsOf (it :: its) x =
          (if nameOf it == x then it.deps else []) ++ depsOf its x := by
        simp only [depsOf, List.filter_cons]
        by_cases hx : nameOf it == x
        · rw [if_pos hx, if_pos hx, List.flatMap_cons]
        · rw [if_neg hx, if_neg hx, List.nil_append]
      rw [hdep]
      rcases lookupD g.inDeg x with _ | v
      · rfl
      · simp only [Option.map_some']
        congr 1
        by_cases hx : x = nameOf it
        · have : (nameOf it == x) = true := by simp [hx]
          rw [if_pos hx, if_pos this]
          push_cast [List.length_append]
          ring
        · have hb : ¬ ((nameOf it == x) = true) := by
            simp only [beq_iff_eq]
            exact fun hc => hx hc.symm
          rw [if_neg hx, if_neg hb]
          simp
    · rw [hc2 x, hc1 x, List.flatMap_cons, List.append_assoc]

/-- The count of `x` in the built child list of `d` equals the count of `d`
among the dependency occurrences of `x`. -/
theorem count_childSpec :
    ∀ (items : List Item) (d x : String),
      List.count x (items.flatMap (fun it => (it.deps.filter (fun y => y == d)).map (fun _ => nameOf it)))
        = List.count d (depsOf items x)
  | [], _, _ => rfl
  | it :: its, d, x => by
    rw [List.flatMap_cons, List.count_append, count_childSpec its d x]
    have hdep : depsOf (it :: its) x =
        (if nameOf it == x then it.deps else []) ++ depsOf its x := by
      simp only [depsOf, List.filter_cons]
      by_cases hx : nameOf it == x
      · rw [if_pos hx, if_pos hx, List.flatMap_cons]
      · rw [if_neg hx, if_neg hx, List.nil_append]
    rw [hdep, List.count_append]
    congr 1
    by_cases hx : nameOf it = x
    · have hb : (nameOf it == x) = true := by simp [hx]
      rw [if_pos hb]
      have : ∀ l : List String, List.count x (l.map (fun _ => nameOf it)) = l.length := by
        intro l
        induction l with
        | nil => rfl
        | cons a l ih => simp [ih, hx]
      rw [this, List.count_eq_countP, List.countP_eq_length_filter]
    · have hb : ¬ ((nameOf it == x) = true) := by
        simp only [beq_iff_eq]
        exact hx
      rw [if_neg hb]
      simp only [List.count_nil]
      rw [List.count_eq_zero]
      intro hm
      rcases List.mem_map.mp hm with ⟨a, _, ha⟩
      exact hx ha

/-- Lookup in the zero-initialised in-degree dict. -/
theorem lookupD_initInDeg (names : List String) (k : String) :
    lookupD (initInDeg names) k = if k ∈ firstDedup names then some 0 else none := by
  unfold initInDeg
  induction firstDedup names with
  | nil => simp [lookupD]
  | cons n l ih =>
    simp only [List.map_cons, lookupD]
    by_cases hk : n = k
    · subst hk
      simp
    · rw [if_neg hk, ih]
      have : (k ∈ n :: l) ↔ k ∈ l := by
        simp [List.mem_cons, Ne.symm hk]
      by_cases h : k ∈ l <;> simp [h, this]

theorem map_fst_initInDeg (names : List String) :
    (initInDeg names).map Prod.fst = firstDedup names := by
  unfold initInDeg
  induction firstDedup names with
  | nil => rfl
  | cons n l ih => simp [ih]

/-! ## Lemmas: unresolved-dependency detection -/

theorem firstBadDep_none_iff (ns : List String) :
    ∀ its : List Item, firstBadDep ns its = none ↔ ∀ it ∈ its, ∀ d ∈ it.deps, d ∈ ns
  | [] => by simp [firstBadDep]
  | it :: its => by
    rw [firstBadDep]
    rcases hf : it.deps.find? (fun d => decide (d ∉ ns)) with _ | d
    · rw [List.find?_eq_none] at hf
      rw [firstBadDep_none_iff ns its]
      constructor
      · intro h it' hit' d hd
        rcases List.mem_cons.mp hit' with h1 | h1
        · subst h1
          have := hf d hd
          simpa using this
        · exact h it' h1 d hd
      · intro h it' hit' d hd
        exact h it' (List.mem_cons_of_mem it hit') d hd
    · simp only [reduceCtorEq, false_iff, not_forall]
      have hd : d ∈ it.deps ∧ d ∉ ns := by
        have h1 := List.find?_some hf
        have h2 := List.mem_of_find?_eq_some hf
        simp only [decide_eq_true_eq] at h1
        exact ⟨h2, h1⟩
      exact ⟨it, List.mem_cons_self it its, d, hd.1, hd.2⟩

theorem buildGraph_error (ns : List String) :
    ∀ (its : List Item) (me d : String) (g : Graph),
      firstBadDep ns its = some (me, d) →
      buildGraph ns g its = .error (.unknownDep me d)
  | [], _, _, _, h => by simp [firstBadDep] at h
  | it :: its, me, d, g, h => by
    rw [firstBadDep] at h
    rcases hf : it.deps.find? (fun d => decide (d ∉ ns)) with _ | d0
    · rw [hf] at h
      have hok : ∀ d' ∈ it.deps, d' ∈ ns := by
        intro d' hd'
        have := List.find?_eq_none.mp hf d' hd'
        simpa using this
      obtain ⟨g1, hb1, _, _, _⟩ := addDeps_ok ns (nameOf it) it.deps g hok
      rw [buildGraph, hb1]
      exact buildGraph_error ns its me d g1 h
    · rw [hf] at h
      have hme : nameOf it = me ∧ d0 = d := by
        simp at h
        exact h
      obtain ⟨hme1, hme2⟩ := hme
      subst hme1
      subst hme2
      have ha := addDeps_error ns (nameOf it) it.deps g d0 hf
      rw [buildGraph, ha]

/-! ## Lemmas: `depsOf` and edges -/

theorem mem_depsOf {items : List Item} {u v : String} :
    u ∈ depsOf items v ↔ edgeR items u v := by
  unfold depsOf edgeR
  rw [List.mem_flatMap]
  constructor
  · rintro ⟨it, hit, hu⟩
    have := List.mem_filter.mp hit
    exact ⟨it, this.1, by simpa using this.2, hu⟩
  · rintro ⟨it, hit, hv, hu⟩
    exact ⟨it, List.mem_filter.mpr ⟨hit, by simp [hv]⟩, hu⟩

/-! ## Lemmas: emit sets and level diffs -/

theorem mem_emitSet_succ {items : List Item} {k : Nat} {x : String} :
    x ∈ emitSet items (k + 1) ↔
      x ∈ firstDedup (items.map nameOf) ∧ ∀ d ∈ depsOf items x, d ∈ emitSet items k := by
  rw [emitSet, List.mem_filter, List.all_eq_true]
  simp only [decide_eq_true_eq]

theorem emitSet_subset_names {items : List Item} :
    ∀ {k : Nat} {x : String}, x ∈ emitSet items k → x ∈ firstDedup (items.map nameOf)
  | 0, _, h => absurd h (List.not_mem_nil _)
  | k + 1, _, h => (mem_emitSet_succ.mp h).1

theorem emitSet_mono_succ {items : List Item} :
    ∀ {k : Nat} {x : String}, x ∈ emitSet items k → x ∈ emitSet items (k + 1)
  | 0, _, h => absurd h (List.not_mem_nil _)
  | k + 1, x, h => by
    obtain ⟨h1, h2⟩ := mem_emitSet_succ.mp h
    exact mem_emitSet_succ.mpr ⟨h1, fun d hd => emitSet_mono_succ (h2 d hd)⟩

theorem emitSet_mono {items : List Item} {j k : Nat} (h : j ≤ k) {x : String}
    (hx : x ∈ emitSet items j) : x ∈ emitSet items k := by
  induction k with
  | zero =>
    have : j = 0 := Nat.le_zero.mp h
    subst this
    exact hx
  | succ k ih =>
    rcases Nat.lt_or_ge j (k + 1) with h1 | h1
    · exact emitSet_mono_succ (ih (Nat.lt_succ_iff.mp h1))
    · have : j = k + 1 := Nat.le_antisymm h h1
      subst this
      exact hx

theorem mem_diffAt {items : List Item} {k : Nat} {x : String} :
    x ∈ diffAt items k ↔ x ∈ emitSet items (k + 1) ∧ x ∉ emitSet items k := by
  rw [diffAt, List.mem_filter]
  simp only [decide_eq_true_eq]

theorem emitSet_nodup (items : List Item) : ∀ k, (emitSet items k).Nodup
  | 0 => List.nodup_nil
  | k + 1 => List.Nodup.filter _ (firstDedup_nodup _)

theorem diffAt_nodup (items : List Item) (k : Nat) : (diffAt items k).Nodup :=
  List.Nodup.filter _ (emitSet_nodup items (k + 1))

theorem emitSet_stab {items : List Item} {k : Nat}
    (h : ∀ x, x ∈ emitSet items (k + 1) ↔ x ∈ emitSet items k) :
    ∀ j x, x ∈ emitSet items (k + j) ↔ x ∈ emitSet items k
  | 0, x => Iff.rfl
  | j + 1, x => by
    have : k + (j + 1) = (k + j) + 1 := rfl
    rw [this, mem_emitSet_succ]
    constructor
    · rintro ⟨h1, h2⟩
      exact (h x).mp (mem_emitSet_succ.mpr
        ⟨h1, fun d hd => (emitSet_stab h j d).mp (h2 d hd)⟩)
    · intro hx
      have hx1 : x ∈ emitSet items (k + 1) := (h x).mpr hx
      obtain ⟨h1, h2⟩ := mem_emitSet_succ.mp hx1
      exact ⟨h1, fun d hd => (emitSet_stab h j d).mpr
        (emitSet_mono (Nat.le_refl k) (h2 d hd))⟩

theorem diffAt_empty_stab {items : List Item} {k : Nat}
    (h : ∀ x, x ∉ diffAt items k) :
    ∀ x, x ∈ emitSet items (k + 1) ↔ x ∈ emitSet items k := by
  intro x
  constructor
  · intro hx
    by_contra hnx
    exact h x (mem_diffAt.mpr ⟨hx, hnx⟩)
  · exact emitSet_mono_succ

theorem mem_emitSet_iff_mem_some_diff {items : List Item} :
    ∀ {t : Nat} {x : String}, x ∈ emitSet items t ↔ ∃ i < t, x ∈ diffAt items i
  | 0, x => by simp [emitSet]
  | t + 1, x => by
    constructor
    · intro hx
      by_cases ht : x ∈ emitSet items t
      · obtain ⟨i, hi, hd⟩ := mem_emitSet_iff_mem_some_diff.mp ht
        exact ⟨i, Nat.lt_succ_of_lt hi, hd⟩
      · exact ⟨t, Nat.lt_succ_self t, mem_diffAt.mpr ⟨hx, ht⟩⟩
    · rintro ⟨i, hi, hd⟩
      have := (mem_diffAt.mp hd).1
      exact emitSet_mono (Nat.succ_le_of_lt hi) this

theorem diffAt_disjoint {items : List Item} {i j : Nat} (hij : i < j) {x : String}
    (hx : x ∈ diffAt items i) : x ∉ diffAt items j := by
  intro hj
  have h1 : x ∈ emitSet items (i + 1) := (mem_diffAt.mp hx).1
  have h2 : x ∉ emitSet items j := (mem_diffAt.mp hj).2
  exact h2 (emitSet_mono (Nat.succ_le_of_lt hij) h1)

/-- The in-degree partition across one round: the count of unfinished dep
occurrences splits into those emitted in round `k` and those still pending. -/
theorem inCnt_split (items : List Item) (k : Nat) (x : String) :
    inCnt items k x =
      (depsOf items x).countP (fun d => decide (d ∈ diffAt items k)) + inCnt items (k + 1) x := by
  unfold inCnt
  refine countP_split _ _ _ _ (fun d _ => ⟨?_, ?_⟩)
  · simp only [decide_eq_true_eq]
    constructor
    · intro hd
      by_cases h1 : d ∈ emitSet items (k + 1)
      · exact .inl (mem_diffAt.mpr ⟨h1, hd⟩)
      · exact .inr h1
    · rintro (h1 | h1)
      · exact (mem_diffAt.mp h1).2
      · exact fun hc => h1 (emitSet_mono_succ hc)
  · simp only [decide_eq_true_eq]
    rintro ⟨h1, h2⟩
    exact h2 (mem_diffAt.mp h1).1

/-- `inCnt (k+1) = 0` means every dep occurrence is emitted after round `k`. -/
theorem inCnt_eq_zero_iff {items : List Item} {k : Nat} {x : String} :
    inCnt items k x = 0 ↔ ∀ d ∈ depsOf items x, d ∈ emitSet items k := by
  unfold inCnt
  rw [List.countP_eq_zero]
  constructor
  · intro h d hd
    have := h d hd
    simpa using this
  · intro h d hd
    simpa using h d hd

/-! ## Lemmas: one round of the Kahn loop preserves the invariant -/

theorem foldl_inner (ch : String → List String) :
    ∀ (lvl : List String) (st : List (String × Int) × List String),
      lvl.foldl (fun st n => (sortStr (ch n)).foldl stepChild st) st =
        (lvl.flatMap (fun n => sortStr (ch n))).foldl stepChild st
  | [], _ => rfl
  | n :: lvl, st => by
    rw [List.foldl_cons, List.flatMap_cons, List.foldl_append]
    exact foldl_inner ch lvl _

theorem processLevel_eq_foldl (ch : String → List String) (lvl : List String)
    (m : List (String × Int)) :
    processLevel ch lvl m = (lvl.flatMap (fun n => sortStr (ch n))).foldl stepChild (m, []) :=
  foldl_inner ch lvl (m, [])

theorem sum_map_add (l : List String) (f g : String → Nat) :
    (l.map (fun x => f x + g x)).sum = (l.map f).sum + (l.map g).sum := by
  induction l with
  | nil => rfl
  | cons a l ih =>
    simp only [List.map_cons, List.sum_cons, ih]
    omega

theorem countP_eq_sum_map (p : String → Bool) (l : List String) :
    l.countP p = (l.map (fun a => if p a then 1 else 0)).sum := by
  induction l with
  | nil => rfl
  | cons a l ih =>
    rw [List.countP_cons, List.map_cons, List.sum_cons, ih]
    by_cases h : p a = true <;> simp [h] <;> omega

theorem perm_of_nodup_mem_iff {l1 l2 : List String} (h1 : l1.Nodup) (h2 : l2.Nodup)
    (h : ∀ x, x ∈ l1 ↔ x ∈ l2) : l1.Perm l2 := by
  rw [List.perm_iff_count]
  intro a
  by_cases ha : a ∈ l1
  · rw [List.count_eq_one_of_mem h1 ha, List.count_eq_one_of_mem h2 ((h a).mp ha)]
  · rw [List.count_eq_zero_of_not_mem ha,
      List.count_eq_zero_of_not_mem (fun hc => ha ((h a).mpr hc))]

theorem sumToNat_eq_keys : ∀ (m : List (String × Int)), (m.map Prod.fst).Nodup →
    sumToNat m = ((m.map Prod.fst).map (fun n => ((lookupD m n).getD 0).toNat)).sum
  | [], _ => rfl
  | p :: ps, h => by
    rw [List.map_cons] at h
    rw [List.nodup_cons] at h
    obtain ⟨hp, hps⟩ := h
    unfold sumToNat
    rw [List.map_cons, List.map_cons, List.map_cons, List.sum_cons, List.sum_cons]
    have h1 : lookupD (p :: ps) p.1 = some p.2 := by
      rw [lookupD, if_pos rfl]
    have h2 : ((ps.map Prod.fst).map (fun n => ((lookupD (p :: ps) n).getD 0).toNat)) =
        ((ps.map Prod.fst).map (fun n => ((lookupD ps n).getD 0).toNat)) := by
      refine List.map_congr_left (fun n hn => ?_)
      have hne : ¬ p.1 = n := fun hc => hp (hc ▸ hn)
      rw [lookupD, if_neg hne]
    rw [h1, h2, ← sumToNat_eq_keys ps hps]
    rfl

/-- One full round of the level loop: if the invariant holds at round `k`, it
holds at round `k + 1` after processing the sorted queue, and the total
pending in-degree strictly absorbs the new queue length. -/
theorem stepLemma (items : List Item) (ch : String → List String)
    (Hch : ∀ d x, List.count x (ch d) = List.count d (depsOf items x))
    (k : Nat) (m : List (String × Int)) (q : List String)
    (hInv : KahnInv items k m q) :
    KahnInv items (k + 1) (processLevel ch (sortStr q) m).1 (processLevel ch (sortStr q) m).2 ∧
    sumToNat (processLevel ch (sortStr q) m).1 + (processLevel ch (sortStr q) m).2.length
      ≤ sumToNat m := by
  obtain ⟨hkeys, hlook, hqnd, hqmem⟩ := hInv
  have hns_nd : (firstDedup (items.map nameOf)).Nodup := firstDedup_nodup _
  have hlvl_nd : (sortStr q).Nodup := sortStr_nodup hqnd
  have hlvl_mem : ∀ x, x ∈ sortStr q ↔ x ∈ diffAt items k :=
    fun x => sortStr_mem.trans (hqmem x)
  have hCS : ∀ x, List.count x ((sortStr q).flatMap (fun n => sortStr (ch n))) =
      (depsOf items x).countP (fun d => decide (d ∈ diffAt items k)) := by
    intro x
    rw [List.count_flatMap]
    have h1 : ((sortStr q).map (List.count x ∘ fun n => sortStr (ch n))) =
        (sortStr q).map (fun n => (depsOf items x).count n) :=
      List.map_congr_left (fun n _ => by
        simp only [Function.comp_apply]
        rw [sortStr_count, Hch])
    rw [h1, sum_count_eq_countP_mem _ _ hlvl_nd]
    exact List.countP_congr (fun d _ => by
      simp only [decide_eq_true_eq]
      exact hlvl_mem d)
  rw [processLevel_eq_foldl]
  obtain ⟨ha, hb, nl, hq', hnl_nd, hnl_mem⟩ :=
    foldStep ((sortStr q).flatMap (fun n => sortStr (ch n))) m []
  rw [List.nil_append] at hq'
  -- the in-degree dict after the round
  have hlook' : ∀ n ∈ firstDedup (items.map nameOf),
      lookupD (((sortStr q).flatMap (fun n => sortStr (ch n))).foldl stepChild (m, [])).1 n =
        some ((inCnt items (k + 1) n : Int)) := by
    intro n hn
    rw [ha n, hlook n hn, hCS n]
    simp only [Option.map_some']
    congr 1
    have := inCnt_split items k n
    push_cast [this]
    ring
  -- membership in the new queue
  have hD : ∀ x, x ∈ nl ↔ x ∈ firstDedup (items.map nameOf) ∧
      inCnt items (k + 1) x = 0 ∧ inCnt items k x ≠ 0 := by
    intro x
    rw [hnl_mem x]
    by_cases hx : x ∈ firstDedup (items.map nameOf)
    · rw [hCS x]
      have hsplit := inCnt_split items k x
      constructor
      · rintro ⟨v, hv, hv1, hv2⟩
        rw [hlook x hx] at hv
        cases hv
        refine ⟨hx, ?_, ?_⟩ <;> omega
      · rintro ⟨_, h1, h2⟩
        exact ⟨(inCnt items k x : Int), hlook x hx, by omega, by omega⟩
    · have : lookupD m x = none := by
        rw [lookupD_eq_none_iff, hkeys]
        exact hx
      simp only [this]
      constructor
      · rintro ⟨v, hv, _⟩
        cases hv
      · rintro ⟨h1, _⟩
        exact absurd h1 hx
  have hdiff : ∀ x, x ∈ nl ↔ x ∈ diffAt items (k + 1) := by
    intro x
    rw [hD x, mem_diffAt]
    constructor
    · rintro ⟨h1, h2, h3⟩
      refine ⟨mem_emitSet_succ.mpr ⟨h1, inCnt_eq_zero_iff.mp h2⟩, fun hc => ?_⟩
      obtain ⟨_, hc2⟩ := mem_emitSet_succ.mp hc
      exact h3 (inCnt_eq_zero_iff.mpr hc2)
    · rintro ⟨h1, h2⟩
      obtain ⟨h11, h12⟩ := mem_emitSet_succ.mp h1
      refine ⟨h11, inCnt_eq_zero_iff.mpr h12, fun hc => ?_⟩
      exact h2 (mem_emitSet_succ.mpr ⟨h11, inCnt_eq_zero_iff.mp hc⟩)
  constructor
  · exact ⟨hb.trans hkeys, hlook', hq' ▸ hnl_nd, fun x => hq' ▸ hdiff x⟩
  · -- the measure bound
    have hkeys' := hb.trans hkeys
    have hsum_m : sumToNat m =
        ((firstDedup (items.map nameOf)).map (fun n => inCnt items k n)).sum := by
      rw [sumToNat_eq_keys m (hkeys ▸ hns_nd), hkeys]
      refine congrArg _ (List.map_congr_left (fun n hn => ?_))
      rw [hlook n hn]
      simp
    have hsum_m' : sumToNat (((sortStr q).flatMap (fun n => sortStr (ch n))).foldl stepChild (m, [])).1 =
        ((firstDedup (items.map nameOf)).map (fun n => inCnt items (k + 1) n)).sum := by
      rw [sumToNat_eq_keys _ (hkeys' ▸ hns_nd), hkeys']
      refine congrArg _ (List.map_congr_left (fun n hn => ?_))
      rw [hlook' n hn]
      simp
    have hlen : nl.length = (firstDedup (items.map nameOf)).countP
        (fun n => decide (inCnt items (k + 1) n = 0 ∧ inCnt items k n ≠ 0)) := by
      have hperm : nl.Perm ((firstDedup (items.map nameOf)).filter
          (fun n => decide (inCnt items (k + 1) n = 0 ∧ inCnt items k n ≠ 0))) := by
        refine perm_of_nodup_mem_iff hnl_nd (List.Nodup.filter _ hns_nd) (fun x => ?_)
        rw [hD x, List.mem_filter]
        simp only [decide_eq_true_eq]
      rw [hperm.length_eq, List.countP_eq_length_filter]
    rw [hq', hsum_m, hsum_m', hlen, countP_eq_sum_map, ← sum_map_add]
    refine List.sum_le_sum (fun n _ => ?_)
    have hsplit := inCnt_split items k n
    by_cases hc : inCnt items (k + 1) n = 0 ∧ inCnt items k n ≠ 0
    · rw [if_pos (by simp [hc])]
      omega
    · rw [if_neg (by simp only [decide_eq_true_eq]; exact hc)]
      omega

/-! ## The main loop characterisation -/

/-- With the invariant at round `k` and enough fuel, the Kahn loop emits level
`i` as the sorted round-`k+i` diff, emits every nonempty round, emits no empty
level, and ends with the invariant on an empty queue. -/
theorem kahn_main (items : List Item) (ch : String → List String)
    (Hch : ∀ d x, List.count x (ch d) = List.count d (depsOf items x)) :
    ∀ (fuel k : Nat) (m : List (String × Int)) (q : List String),
      KahnInv items k m q → sumToNat m + q.length < fuel →
      (∀ i (hi : i < (kahnLoopF ch fuel m q).1.length),
          (kahnLoopF ch fuel m q).1.get ⟨i, hi⟩ = sortStr (diffAt items (k + i))) ∧
      (∀ j, (∃ x, x ∈ diffAt items (k + j)) → j < (kahnLoopF ch fuel m q).1.length) ∧
      (∀ i (hi : i < (kahnLoopF ch fuel m q).1.length),
          (kahnLoopF ch fuel m q).1.get ⟨i, hi⟩ ≠ []) ∧
      KahnInv items (k + (kahnLoopF ch fuel m q).1.length) (kahnLoopF ch fuel m q).2 []
  | 0, _, _, _, _, hf => absurd hf (by omega)
  | fuel + 1, k, m, q, hInv, hf => by
    obtain ⟨hk0, hl0, hqnd, hqmem⟩ := hInv
    by_cases hq : q = []
    · subst hq
      have hkl : kahnLoopF ch (fuel + 1) m [] = ([], m) := by
        simp [kahnLoopF]
      rw [hkl]
      have hempty : ∀ x, x ∉ diffAt items k := fun x hx => by
        have := (hqmem x).mpr hx
        exact absurd this (List.not_mem_nil x)
      have hstab := emitSet_stab (diffAt_empty_stab hempty)
      refine ⟨fun i hi => absurd hi (by simp), ?_, fun i hi => absurd hi (by simp), ?_⟩
      · rintro j ⟨x, hx⟩
        exfalso
        obtain ⟨h1, h2⟩ := mem_diffAt.mp hx
        have h1' : x ∈ emitSet items k := (hstab (j + 1) x).mp h1
        exact h2 ((hstab j x).mpr h1')
      · simpa using ⟨hk0, hl0, hqnd, hqmem⟩
    · have hstep := stepLemma items ch Hch k m q ⟨hk0, hl0, hqnd, hqmem⟩
      obtain ⟨hInv', hmeas⟩ := hstep
      have hq1 : 1 ≤ q.length := by
        cases q with
        | nil => exact absurd rfl hq
        | cons a l => simp
      have hf' : sumToNat (processLevel ch (sortStr q) m).1 +
          (processLevel ch (sortStr q) m).2.length < fuel := by omega
      obtain ⟨ih1, ih2, ih3, ih4⟩ := kahn_main items ch Hch fuel (k + 1) _ _ hInv' hf'
      have hkl : kahnLoopF ch (fuel + 1) m q =
          (sortStr q ::
            (kahnLoopF ch fuel (processLevel ch (sortStr q) m).1
              (processLevel ch (sortStr q) m).2).1,
           (kahnLoopF ch fuel (processLevel ch (sortStr q) m).1
              (processLevel ch (sortStr q) m).2).2) := by
        simp [kahnLoopF, hq]
      have hlvl : sortStr q = sortStr (diffAt items k) :=
        sortStr_eq_of_perm
          (perm_of_nodup_mem_iff hqnd (diffAt_nodup items k) hqmem)
      rw [hkl]
      refine ⟨?_, ?_, ?_, ?_⟩
      · intro i hi
        match i, hi with
        | 0, _ =>
          show sortStr q = sortStr (diffAt items (k + 0))
          rw [Nat.add_zero]
          exact hlvl
        | i + 1, hi =>
          rw [List.get_cons_succ]
          have := ih1 i (by simpa using hi)
          rw [show (k + 1) + i = k + (i + 1) by omega] at this
          exact this
      · intro j hj
        match j with
        | 0 => simp
        | j + 1 =>
          have hj' : ∃ x, x ∈ diffAt items ((k + 1) + j) := by
            obtain ⟨x, hx⟩ := hj
            exact ⟨x, by rw [show (k + 1) + j = k + (j + 1) by omega]; exact hx⟩
          have := ih2 j hj'
          simp only [List.length_cons]
          omega
      · intro i hi
        match i, hi with
        | 0, _ =>
          show sortStr q ≠ []
          rw [Ne, sortStr_eq_nil_iff]
          exact hq
        | i + 1, hi =>
          rw [List.get_cons_succ]
          exact ih3 i (by simpa using hi)
      · simp only [List.length_cons]
        rw [show k + ((kahnLoopF ch fuel (processLevel ch (sortStr q) m).1
              (processLevel ch (sortStr q) m).2).1.length + 1) =
            (k + 1) + (kahnLoopF ch fuel (processLevel ch (sortStr q) m).1
              (processLevel ch (sortStr q) m).2).1.length by omega]
        exact ih4

/-! ## Characterising `levels` -/

theorem inCnt_zero (items : List Item) (n : String) :
    inCnt items 0 n = (depsOf items n).length := by
  unfold inCnt
  have : ∀ d ∈ depsOf items n, (decide (d ∉ emitSet items 0)) = true := by
    intro d _
    simp [emitSet]
  calc (depsOf items n).countP (fun d => decide (d ∉ emitSet items 0))
      = (depsOf items n).countP (fun _ => true) :=
        List.countP_congr (fun d hd => by simp [this d hd])
    _ = (depsOf items n).length := by rw [List.countP_true]

theorem mem_filter_zero_keys : ∀ {m : List (String × Int)}, (m.map Prod.fst).Nodup →
    ∀ {x : String}, (x ∈ (m.filter (fun p => p.2 = 0)).map Prod.fst ↔ lookupD m x = some 0)
  | [], _, x => by simp [lookupD]
  | p :: ps, hnd, x => by
    rw [List.map_cons, List.nodup_cons] at hnd
    obtain ⟨hp, hps⟩ := hnd
    by_cases hx : p.1 = x
    · subst hx
      rw [lookupD, if_pos rfl]
      by_cases h0 : p.2 = 0
      · rw [List.filter_cons, if_pos (by simp [h0])]
        simp [h0]
      · rw [List.filter_cons, if_neg (by simp [h0])]
        constructor
        · intro hmem
          exfalso
          have hsub : ((ps.filter (fun p => p.2 = 0)).map Prod.fst).Sublist (ps.map Prod.fst) :=
            List.Sublist.map Prod.fst (List.filter_sublist ps)
          exact hp (hsub.mem hmem)
        · intro hc
          exact absurd (Option.some.inj hc) h0
    · rw [lookupD, if_neg hx, List.filter_cons]
      by_cases h0 : p.2 = 0
      · rw [if_pos (by simp [h0]), List.map_cons]
        rw [List.mem_cons]
        constructor
        · rintro (h | h)
          · exact absurd h.symm hx
          · exact (mem_filter_zero_keys hps).mp h
        · intro h
          exact .inr ((mem_filter_zero_keys hps).mpr h)
      · rw [if_neg (by simp [h0])]
        exact mem_filter_zero_keys hps

theorem any_pos_iff : ∀ {m : List (String × Int)}, (m.map Prod.fst).Nodup →
    (m.any (fun p => 0 < p.2) = true ↔ ∃ x v, lookupD m x = some v ∧ 0 < v)
  | [], _ => by simp [lookupD]
  | p :: ps, hnd => by
    rw [List.map_cons, List.nodup_cons] at hnd
    obtain ⟨hp, hps⟩ := hnd
    rw [List.any_cons]
    constructor
    · intro h
      rcases Bool.or_eq_true_iff.mp h with h1 | h1
      · exact ⟨p.1, p.2, by rw [lookupD, if_pos rfl], by simpa using h1⟩
      · obtain ⟨x, v, hl, hv⟩ := (any_pos_iff hps).mp h1
        have hxk : x ∈ ps.map Prod.fst :=
          lookupD_isSome_iff_mem.mp (by rw [hl]; rfl)
        have hne : ¬ p.1 = x := fun hc => hp (hc ▸ hxk)
        exact ⟨x, v, by rw [lookupD, if_neg hne]; exact hl, hv⟩
    · rintro ⟨x, v, hl, hv⟩
      by_cases hx : p.1 = x
      · subst hx
        rw [lookupD, if_pos rfl] at hl
        cases hl
        exact Bool.or_eq_true_iff.mpr (.inl (by simpa using hv))
      · rw [lookupD, if_neg hx] at hl
        exact Bool.or_eq_true_iff.mpr (.inr ((any_pos_iff hps).mpr ⟨x, v, hl, hv⟩))

/-- The master characterisation of `levels` when every dependency resolves:
the output levels are the sorted emit-diffs, every nonempty diff is emitted,
the emit sets are stable after the last round, and the call succeeds exactly
when every name was emitted (otherwise `CycleError`). -/
theorem levels_char (items : List Item)
    (HR : ∀ it ∈ items, ∀ d ∈ it.deps, d ∈ items.map nameOf) :
    ∃ L : List (List String),
      (∀ i (hi : i < L.length), L.get ⟨i, hi⟩ = sortStr (diffAt items i)) ∧
      (∀ j, (∃ x, x ∈ diffAt items j) → j < L.length) ∧
      (∀ i (hi : i < L.length), L.get ⟨i, hi⟩ ≠ []) ∧
      (∀ x, x ∈ emitSet items (L.length + 1) ↔ x ∈ emitSet items L.length) ∧
      ((∀ n ∈ firstDedup (items.map nameOf), n ∈ emitSet items L.length) →
        levels items = .ok L) ∧
      ((∃ n, n ∈ firstDedup (items.map nameOf) ∧ n ∉ emitSet items L.length) →
        levels items = .error .cycle) := by
  have HR' : ∀ it ∈ items, ∀ d ∈ it.deps, d ∈ firstDedup (items.map nameOf) :=
    fun it hit d hd => firstDedup_mem.mpr (HR it hit d hd)
  obtain ⟨g, hbg, hkeys, hlookg, hchg⟩ :=
    buildGraph_ok (firstDedup (items.map nameOf)) items
      { inDeg := initInDeg (items.map nameOf), children := fun _ => [] } HR'
  have hnsnd := firstDedup_nodup (items.map nameOf)
  have hkeysg : g.inDeg.map Prod.fst = firstDedup (items.map nameOf) := by
    rw [hkeys]
    exact map_fst_initInDeg _
  have hkeysg_nd : (g.inDeg.map Prod.fst).Nodup := by
    rw [hkeysg]
    exact hnsnd
  have hlookg' : ∀ n, lookupD g.inDeg n =
      if n ∈ firstDedup (items.map nameOf) then some (((depsOf items n).length : Int)) else none := by
    intro n
    rw [hlookg n, lookupD_initInDeg]
    by_cases hn : n ∈ firstDedup (items.map nameOf)
    · rw [if_pos hn, if_pos hn]
      simp
    · rw [if_neg hn, if_neg hn]
      rfl
  have Hch : ∀ d x, List.count x (g.children d) = List.count d (depsOf items x) := by
    intro d x
    rw [hchg d, List.nil_append]
    exact count_childSpec items d x
  have hq0mem : ∀ x, x ∈ sortStr ((g.inDeg.filter (fun p => p.2 = 0)).map Prod.fst) ↔
      x ∈ diffAt items 0 := by
    intro x
    rw [sortStr_mem, mem_filter_zero_keys hkeysg_nd, hlookg' x, mem_diffAt]
    constructor
    · intro h
      by_cases hx : x ∈ firstDedup (items.map nameOf)
      · rw [if_pos hx] at h
        have hlen : (depsOf items x).length = 0 := by
          have := Option.some.inj h
          omega
        refine ⟨mem_emitSet_succ.mpr ⟨hx, fun d hd => ?_⟩, List.not_mem_nil x⟩
        rw [List.length_eq_zero.mp hlen] at hd
        exact absurd hd (List.not_mem_nil d)
      · rw [if_neg hx] at h
        cases h
    · rintro ⟨h1, _⟩
      obtain ⟨hx, hdeps⟩ := mem_emitSet_succ.mp h1
      rw [if_pos hx]
      have hlen : depsOf items x = [] := by
        rw [List.eq_nil_iff_forall_not_mem]
        intro d hd
        exact absurd (hdeps d hd) (List.not_mem_nil d)
      rw [hlen]
      rfl
  have hq0nd : (sortStr ((g.inDeg.filter (fun p => p.2 = 0)).map Prod.fst)).Nodup := by
    refine sortStr_nodup (List.Nodup.sublist ?_ hkeysg_nd)
    exact List.Sublist.map Prod.fst (List.filter_sublist g.inDeg)
  have hInv0 : KahnInv items 0 g.inDeg
      (sortStr ((g.inDeg.filter (fun p => p.2 = 0)).map Prod.fst)) := by
    refine ⟨hkeysg, fun n hn => ?_, hq0nd, hq0mem⟩
    rw [hlookg' n, if_pos hn, inCnt_zero]
  obtain ⟨h1, h2, h3, h4⟩ :=
    kahn_main items g.children Hch
      (sumToNat g.inDeg + (sortStr ((g.inDeg.filter (fun p => p.2 = 0)).map Prod.fst)).length + 1)
      0 g.inDeg (sortStr ((g.inDeg.filter (fun p => p.2 = 0)).map Prod.fst)) hInv0 (by omega)
  rcases hpr : kahnLoopF g.children
      (sumToNat g.inDeg + (sortStr ((g.inDeg.filter (fun p => p.2 = 0)).map Prod.fst)).length + 1)
      g.inDeg (sortStr ((g.inDeg.filter (fun p => p.2 = 0)).map Prod.fst)) with ⟨L, mf⟩
  rw [hpr] at h1 h2 h3 h4
  simp only [Nat.zero_add] at h1 h2 h3 h4
  obtain ⟨hk4, hl4, _, hq4⟩ := h4
  have hdiffL : ∀ x, x ∉ diffAt items L.length := by
    intro x hx
    exact absurd ((hq4 x).mpr hx) (List.not_mem_nil x)
  have hfix := diffAt_empty_stab hdiffL
  have hlev : levels items =
      if mf.any (fun p => 0 < p.2) then .error .cycle else .ok L := by
    unfold levels
    simp only [hbg, hpr]
  have hany : mf.any (fun p => 0 < p.2) = true ↔
      ∃ n, n ∈ firstDedup (items.map nameOf) ∧ 0 < inCnt items L.length n := by
    have hk4nd : (mf.map Prod.fst).Nodup := by
      rw [hk4]
      exact hnsnd
    rw [any_pos_iff hk4nd]
    constructor
    · rintro ⟨x, v, hl, hv⟩
      have hxk : x ∈ mf.map Prod.fst := lookupD_isSome_iff_mem.mp (by rw [hl]; rfl)
      rw [hk4] at hxk
      rw [hl4 x hxk] at hl
      cases hl
      exact ⟨x, hxk, by exact_mod_cast hv⟩
    · rintro ⟨n, hn, hcnt⟩
      exact ⟨n, (inCnt items L.length n : Int), hl4 n hn, by exact_mod_cast hcnt⟩
  refine ⟨L, h1, h2, h3, hfix, ?_, ?_⟩
  · intro hall
    have hno : mf.any (fun p => 0 < p.2) = false := by
      rw [← Bool.not_eq_true, hany]
      rintro ⟨n, hn, hcnt⟩
      have hnE : n ∈ emitSet items (L.length + 1) := emitSet_mono_succ (hall n hn)
      obtain ⟨_, hdeps⟩ := mem_emitSet_succ.mp hnE
      rw [inCnt_eq_zero_iff.mpr hdeps] at hcnt
      exact absurd hcnt (by omega)
    rw [hlev, hno]
    rfl
  · rintro ⟨n, hn, hnE⟩
    have hyes : mf.any (fun p => 0 < p.2) = true := by
      rw [hany]
      refine ⟨n, hn, ?_⟩
      rcases Nat.eq_zero_or_pos (inCnt items L.length n) with h0 | h0
      · exfalso
        have : n ∈ emitSet items (L.length + 1) :=
          mem_emitSet_succ.mpr ⟨hn, inCnt_eq_zero_iff.mp h0⟩
        exact hnE ((hfix n).mp this)
      · exact h0
    rw [hlev, hyes]
    rfl

/-! ## Chains, cycles and acyclicity -/

theorem edge_target_mem {items : List Item} {u v : String} (h : edgeR items u v) :
    v ∈ firstDedup (items.map nameOf) := by
  obtain ⟨it, hit, hv, _⟩ := h
  exact firstDedup_mem.mpr (List.mem_map.mpr ⟨it, hit, hv⟩)

/-- Everything emittable in `k + 1` rounds has all its chains of length at
most `k`. -/
theorem chains_le_of_emit (items : List Item) :
    ∀ (k : Nat) (x : String), x ∈ emitSet items (k + 1) →
      ∀ j, ChainTo items j x → j ≤ k
  | 0, x, hx, j, hch => by
    cases hch with
    | zero => omega
    | succ h hc =>
      obtain ⟨_, hdeps⟩ := mem_emitSet_succ.mp hx
      have := hdeps _ (mem_depsOf.mpr h)
      exact absurd this (List.not_mem_nil _)
  | k + 1, x, hx, j, hch => by
    cases hch with
    | zero => omega
    | succ h hc =>
      obtain ⟨_, hdeps⟩ := mem_emitSet_succ.mp hx
      have hu := hdeps _ (mem_depsOf.mpr h)
      have := chains_le_of_emit items k _ hu _ hc
      omega

/-- Conversely, a name with all chains bounded by `k` is emittable in `k + 1`
rounds, provided every dependency resolves. -/
theorem emit_of_chains_le (items : List Item)
    (HR : ∀ it ∈ items, ∀ d ∈ it.deps, d ∈ items.map nameOf) :
    ∀ (k : Nat) (x : String), x ∈ firstDedup (items.map nameOf) →
      (∀ j, ChainTo items j x → j ≤ k) → x ∈ emitSet items (k + 1)
  | 0, x, hx, hb => by
    refine mem_emitSet_succ.mpr ⟨hx, fun d hd => ?_⟩
    have hedge : edgeR items d x := mem_depsOf.mp hd
    have := hb 1 (ChainTo.succ hedge (ChainTo.zero d))
    omega
  | k + 1, x, hx, hb => by
    refine mem_emitSet_succ.mpr ⟨hx, fun d hd => ?_⟩
    have hedge : edgeR items d x := mem_depsOf.mp hd
    have hdns : d ∈ firstDedup (items.map nameOf) := by
      obtain ⟨it, hit, _, hdit⟩ := hedge
      exact firstDedup_mem.mpr (HR it hit d hdit)
    refine emit_of_chains_le items HR k d hdns (fun j hcj => ?_)
    have := hb (j + 1) (ChainTo.succ hedge hcj)
    omega

/-- A `TransGen` path of edges shifts every chain to its start into a longer
chain to its end. -/
theorem transGen_chain_shift {items : List Item} {u v : String}
    (h : Relation.TransGen (edgeR items) u v) :
    ∃ n, 1 ≤ n ∧ ∀ m, ChainTo items m u → ChainTo items (m + n) v := by
  induction h with
  | single e => exact ⟨1, Nat.le_refl 1, fun m hm => ChainTo.succ e hm⟩
  | tail _ e ih =>
    obtain ⟨n, hn, hf⟩ := ih
    exact ⟨n + 1, by omega, fun m hm => ChainTo.succ e (hf m hm)⟩

/-- A name on a dependency cycle has chains of every length ending at it. -/
theorem cycle_unbounded {items : List Item} {v : String}
    (h : Relation.TransGen (edgeR items) v v) :
    ∀ t, ∃ j, t ≤ j ∧ ChainTo items j v := by
  obtain ⟨n, hn, hf⟩ := transGen_chain_shift h
  intro t
  induction t with
  | zero => exact ⟨0, Nat.le_refl 0, ChainTo.zero v⟩
  | succ t ih =>
    obtain ⟨j, hj, hc⟩ := ih
    exact ⟨j + n, by omega, hf j hc⟩

/-- A name on a dependency cycle is never emitted. -/
theorem cycle_not_emit {items : List Item} {v : String}
    (h : Relation.TransGen (edgeR items) v v) :
    ∀ k, v ∉ emitSet items k
  | 0, hv => absurd hv (List.not_mem_nil v)
  | k + 1, hv => by
    obtain ⟨j, hj, hc⟩ := cycle_unbounded h (k + 1)
    have := chains_le_of_emit items k v hv j hc
    omega

theorem cycle_target_mem {items : List Item} {v : String}
    (h : Relation.TransGen (edgeR items) v v) :
    v ∈ firstDedup (items.map nameOf) := by
  cases h with
  | single e => exact edge_target_mem e
  | tail _ e => exact edge_target_mem e

/-- In an acyclic dependency graph with resolving deps, every name is
eventually emitted (finitely many names, well-founded recursion on the
transitive closure of the edge relation). -/
theorem acyclic_all_emit (items : List Item)
    (HR : ∀ it ∈ items, ∀ d ∈ it.deps, d ∈ items.map nameOf)
    (hacyc : ∀ v, ¬ Relation.TransGen (edgeR items) v v) :
    ∀ n ∈ items.map nameOf, ∃ k, n ∈ emitSet items k := by
  have hfin : Finite {x // x ∈ items.map nameOf} :=
    (List.finite_toSet (items.map nameOf)).to_subtype
  have hwf : WellFounded (fun a b : {x // x ∈ items.map nameOf} =>
      Relation.TransGen (edgeR items) a.1 b.1) := by
    have h1 : IsTrans {x // x ∈ items.map nameOf}
        (fun a b => Relation.TransGen (edgeR items) a.1 b.1) :=
      ⟨fun _ _ _ hab hbc => hab.trans hbc⟩
    have h2 : IsIrrefl {x // x ∈ items.map nameOf}
        (fun a b => Relation.TransGen (edgeR items) a.1 b.1) :=
      ⟨fun a => hacyc a.1⟩
    exact Finite.wellFounded_of_trans_of_irrefl _
  have hmax : ∀ l : List String, (∀ d ∈ l, ∃ k, d ∈ emitSet items k) →
      ∃ K, ∀ d ∈ l, d ∈ emitSet items K := by
    intro l
    induction l with
    | nil => exact fun _ => ⟨0, fun d hd => absurd hd (List.not_mem_nil d)⟩
    | cons a l ih =>
      intro h
      obtain ⟨ka, hka⟩ := h a (List.mem_cons_self a l)
      obtain ⟨K, hK⟩ := ih (fun d hd => h d (List.mem_cons_of_mem a hd))
      refine ⟨max ka K, fun d hd => ?_⟩
      rcases List.mem_cons.mp hd with h1 | h1
      · subst h1
        exact emitSet_mono (Nat.le_max_left ka K) hka
      · exact emitSet_mono (Nat.le_max_right ka K) (hK d h1)
  intro n hn
  have key : ∀ s : {x // x ∈ items.map nameOf}, ∃ k, s.1 ∈ emitSet items k := by
    intro s
    induction s using hwf.induction with
    | _ s ih =>
      have hdeps : ∀ d ∈ depsOf items s.1, ∃ k, d ∈ emitSet items k := by
        intro d hd
        have hedge : edgeR items d s.1 := mem_depsOf.mp hd
        have hdn : d ∈ items.map nameOf := by
          obtain ⟨it, hit, _, hdit⟩ := hedge
          exact HR it hit d hdit
        exact ih ⟨d, hdn⟩ (Relation.TransGen.single hedge)
      obtain ⟨K, hK⟩ := hmax _ hdeps
      exact ⟨K + 1, mem_emitSet_succ.mpr ⟨firstDedup_mem.mpr s.2, hK⟩⟩
  exact key ⟨n, hn⟩

/-! ## Unknown-dependency behaviour of `levels` -/

/-- When some dependency fails to resolve, `levels` raises `KeyError` for the
first violating (item, dep) pair in scan order, before any levelling. -/
theorem levels_error_unknown (items : List Item)
    (h : ∃ it ∈ items, ∃ d ∈ it.deps, d ∉ items.map nameOf) :
    ∃ me d, firstBadDep (firstDedup (items.map nameOf)) items = some (me, d) ∧
      levels items = .error (.unknownDep me d) := by
  have hnone : firstBadDep (firstDedup (items.map nameOf)) items ≠ none := by
    rw [Ne, firstBadDep_none_iff]
    intro hall
    obtain ⟨it, hit, d, hd, hdn⟩ := h
    exact hdn (firstDedup_mem.mp (hall it hit d hd))
  rcases hfb : firstBadDep (firstDedup (items.map nameOf)) items with _ | ⟨me, d⟩
  · exact absurd hfb hnone
  · refine ⟨me, d, rfl, ?_⟩
    have hbg := buildGraph_error (firstDedup (items.map nameOf)) items me d
      { inDeg := initInDeg (items.map nameOf), children := fun _ => [] } hfb
    unfold levels
    simp only [hbg]

/-- If `levels` succeeds, every dependency resolved. -/
theorem HR_of_levels_ok {items : List Item} {L : List (List String)}
    (h : levels items = .ok L) :
    ∀ it ∈ items, ∀ d ∈ it.deps, d ∈ items.map nameOf := by
  by_contra hc
  push_neg at hc
  obtain ⟨it, hit, d, hd, hdn⟩ := hc
  obtain ⟨me, d', _, herr⟩ := levels_error_unknown items ⟨it, hit, d, hd, hdn⟩
  rw [h] at herr
  cases herr

/-! ## Permutation invariance of the graph data -/

theorem ns_mem_perm {items items' : List Item} (h : items.Perm items') (x : String) :
    x ∈ firstDedup (items.map nameOf) ↔ x ∈ firstDedup (items'.map nameOf) := by
  rw [firstDedup_mem, firstDedup_mem]
  exact (h.map nameOf).mem_iff

theorem depsOf_perm {items items' : List Item} (h : items.Perm items') (n : String) :
    (depsOf items n).Perm (depsOf items' n) :=
  List.Perm.flatMap_right Item.deps (h.filter _)

theorem emit_mem_perm {items items' : List Item} (h : items.Perm items') :
    ∀ (k : Nat) (x : String), x ∈ emitSet items k ↔ x ∈ emitSet items' k
  | 0, x => Iff.rfl
  | k + 1, x => by
    rw [mem_emitSet_succ, mem_emitSet_succ, ns_mem_perm h]
    constructor
    · rintro ⟨h1, h2⟩
      refine ⟨h1, fun d hd => ?_⟩
      exact (emit_mem_perm h k d).mp (h2 d ((depsOf_perm h x).mem_iff.mpr hd))
    · rintro ⟨h1, h2⟩
      refine ⟨h1, fun d hd => ?_⟩
      exact (emit_mem_perm h k d).mpr (h2 d ((depsOf_perm h x).mem_iff.mp hd))

theorem diff_mem_perm {items items' : List Item} (h : items.Perm items') (k : Nat) (x : String) :
    x ∈ diffAt items k ↔ x ∈ diffAt items' k := by
  rw [mem_diffAt, mem_diffAt, emit_mem_perm h (k + 1), emit_mem_perm h k]

theorem diff_sort_perm {items items' : List Item} (h : items.Perm items') (k : Nat) :
    sortStr (diffAt items k) = sortStr (diffAt items' k) :=
  sortStr_eq_of_perm
    (perm_of_nodup_mem_iff (diffAt_nodup items k) (diffAt_nodup items' k) (diff_mem_perm h k))

/-! ## The packaged characterisation of a successful `levels` call -/

/-- Whenever `levels` returns `ok L`, the levels are the sorted emit-diffs,
nonempty diffs are all emitted, every level is nonempty, the emit sets are
stable after round `L.length`, and every resolved name has been emitted. -/
theorem levels_ok_char (items : List Item) {L : List (List String)}
    (hok : levels items = .ok L) :
    (∀ i (hi : i < L.length), L.get ⟨i, hi⟩ = sortStr (diffAt items i)) ∧
    (∀ j, (∃ x, x ∈ diffAt items j) → j < L.length) ∧
    (∀ i (hi : i < L.length), L.get ⟨i, hi⟩ ≠ []) ∧
    (∀ x, x ∈ emitSet items (L.length + 1) ↔ x ∈ emitSet items L.length) ∧
    (∀ n ∈ firstDedup (items.map nameOf), n ∈ emitSet items L.length) := by
  have HR := HR_of_levels_ok hok
  obtain ⟨L0, h1, h2, h3, hfix, hsucc, hcyc⟩ := levels_char items HR
  by_cases hall : ∀ n ∈ firstDedup (items.map nameOf), n ∈ emitSet items L0.length
  · have hthis := hsucc hall
    rw [hok] at hthis
    have hLL : L = L0 := Except.ok.inj hthis
    subst hLL
    exact ⟨h1, h2, h3, hfix, hall⟩
  · push_neg at hall
    obtain ⟨n, hn, hnE⟩ := hall
    have hthis := hcyc ⟨n, hn, hnE⟩
    rw [hok] at hthis
    cases hthis

instance (items : List Item) (u v : String) : Decidable (edgeR items u v) :=
  decidable_of_iff (∃ it ∈ items, nameOf it = v ∧ u ∈ it.deps) Iff.rfl

/-! ## The claims about the merge-order engine -/

/-- C1: for every item list with unique resolved names and all deps resolving
to existing resolved names, if `levels` returns a level sequence, then for
every dependency edge `u → v` (item `v` lists `u` in its deps), the index of
the level containing `u` is strictly less than the index of the level
containing `v`. -/
theorem claim_C1_topological_validity (items : List Item) (L : List (List String))
    (hnd : (items.map nameOf).Nodup)
    (hres : ∀ it ∈ items, ∀ d ∈ it.deps, d ∈ items.map nameOf)
    (hok : levels items = .ok L)
    (u v : String) (hedge : edgeR items u v)
    (i j : Nat) (hi : i < L.length) (hj : j < L.length)
    (hu : u ∈ L.get ⟨i, hi⟩) (hv : v ∈ L.get ⟨j, hj⟩) :
    i < j := by
  obtain ⟨h1, h2, h3, hfix, hall⟩ := levels_ok_char items hok
  rw [h1 i hi, sortStr_mem] at hu
  rw [h1 j hj, sortStr_mem] at hv
  have hvE : v ∈ emitSet items (j + 1) := (mem_diffAt.mp hv).1
  obtain ⟨_, hdeps⟩ := mem_emitSet_succ.mp hvE
  have huE : u ∈ emitSet items j := hdeps u (mem_depsOf.mpr hedge)
  obtain ⟨i', hi', hui'⟩ := mem_emitSet_iff_mem_some_diff.mp huE
  rcases Nat.lt_trichotomy i i' with h | h | h
  · exact absurd hui' (diffAt_disjoint h hu)
  · omega
  · exact absurd hu (diffAt_disjoint h hui')

theorem claim_C1_witness : (0 : Nat) < 1 :=
  claim_C1_topological_validity
    [⟨some "A", "r", "a", []⟩, ⟨some "B", "r", "b", ["A"]⟩] [["A"], ["B"]]
    (by decide) (by decide) rfl "A" "B" (by decide)
    0 1 (by decide) (by decide) (by decide) (by decide)

/-- C2: for every item list with unique resolved names and all deps resolving,
if the dependency relation contains a cycle, `levels` raises `CycleError` and
returns no level list. -/
theorem claim_C2_cycle_error (items : List Item)
    (hnd : (items.map nameOf).Nodup)
    (hres : ∀ it ∈ items, ∀ d ∈ it.deps, d ∈ items.map nameOf)
    (hcyc : ∃ v, Relation.TransGen (edgeR items) v v) :
    levels items = .error .cycle := by
  obtain ⟨L0, h1, h2, h3, hfix, hsucc, hcycle⟩ := levels_char items hres
  obtain ⟨v, hv⟩ := hcyc
  exact hcycle ⟨v, cycle_target_mem hv, cycle_not_emit hv L0.length⟩

theorem claim_C2_witness :
    levels [⟨some "A", "r", "a", ["B"]⟩, ⟨some "B", "r", "b", ["A"]⟩] = .error .cycle :=
  claim_C2_cycle_error _ (by decide) (by decide)
    ⟨"A",
      Relation.TransGen.tail
        (Relation.TransGen.single
          (show edgeR [⟨some "A", "r", "a", ["B"]⟩, ⟨some "B", "r", "b", ["A"]⟩] "A" "B"
            by decide))
        (show edgeR [⟨some "A", "r", "a", ["B"]⟩, ⟨some "B", "r", "b", ["A"]⟩] "B" "A"
          by decide)⟩

/-- C3: for every item list, if some item's deps entry does not resolve to any
item's name, `levels` fails before any levelling with an unknown-dependency
error naming the referencing item's resolved name and the missing dep, the
first such violation in item-then-dep scan order. -/
theorem claim_C3_unknown_dep_first (items : List Item)
    (hbad : ∃ it ∈ items, ∃ d ∈ it.deps, d ∉ items.map nameOf) :
    ∃ me d, firstBadDep (firstDedup (items.map nameOf)) items = some (me, d) ∧
      levels items = .error (.unknownDep me d) :=
  levels_error_unknown items hbad

theorem claim_C3_witness :
    ∃ me d,
      firstBadDep (firstDedup (([⟨some "B", "r", "b", ["X"]⟩] : List Item).map nameOf))
          [⟨some "B", "r", "b", ["X"]⟩] = some (me, d) ∧
      levels [⟨some "B", "r", "b", ["X"]⟩] = .error (.unknownDep me d) :=
  claim_C3_unknown_dep_first _ (by decide)

/-- C4: for every item list with unique resolved names, all deps resolving and
an acyclic dependency relation, `levels` succeeds and the multiset union of
the returned levels is exactly the set of resolved names: every name in
exactly one level, no duplicates, no omissions. -/
theorem claim_C4_partition (items : List Item)
    (hnd : (items.map nameOf).Nodup)
    (hres : ∀ it ∈ items, ∀ d ∈ it.deps, d ∈ items.map nameOf)
    (hacyc : ∀ v, ¬ Relation.TransGen (edgeR items) v v) :
    ∃ L, levels items = .ok L ∧ L.flatten.Perm (items.map nameOf) := by
  obtain ⟨L0, h1, h2, h3, hfix, hsucc, hcyc⟩ := levels_char items hres
  have hcomp : ∀ n ∈ firstDedup (items.map nameOf), n ∈ emitSet items L0.length := by
    intro n hn
    obtain ⟨k, hk⟩ := acyclic_all_emit items hres hacyc n (firstDedup_mem.mp hn)
    rcases Nat.le_total k L0.length with h | h
    · exact emitSet_mono h hk
    · have hst := emitSet_stab hfix (k - L0.length) n
      rw [show L0.length + (k - L0.length) = k by omega] at hst
      exact hst.mp hk
  refine ⟨L0, hsucc hcomp, ?_⟩
  have hmemJ : ∀ x, x ∈ L0.flatten ↔ x ∈ items.map nameOf := by
    intro x
    rw [List.mem_flatten]
    constructor
    · rintro ⟨l, hl, hx⟩
      obtain ⟨fi, hfi⟩ := List.mem_iff_get.mp hl
      have hx2 : x ∈ L0.get ⟨fi.1, fi.2⟩ := by
        rw [show (⟨fi.1, fi.2⟩ : Fin L0.length) = fi from rfl, hfi]
        exact hx
      rw [h1 fi.1 fi.2, sortStr_mem] at hx2
      have hxE : x ∈ emitSet items L0.length :=
        mem_emitSet_iff_mem_some_diff.mpr ⟨fi.1, fi.2, hx2⟩
      exact firstDedup_mem.mp (emitSet_subset_names hxE)
    · intro hx
      have hxE : x ∈ emitSet items L0.length := hcomp x (firstDedup_mem.mpr hx)
      obtain ⟨i, hi, hxd⟩ := mem_emitSet_iff_mem_some_diff.mp hxE
      refine ⟨L0.get ⟨i, hi⟩, List.get_mem L0 i hi, ?_⟩
      rw [h1 i hi, sortStr_mem]
      exact hxd
  have hndJ : L0.flatten.Nodup := by
    rw [List.nodup_flatten]
    constructor
    · intro l hl
      obtain ⟨fi, hfi⟩ := List.mem_iff_get.mp hl
      have : l = L0.get ⟨fi.1, fi.2⟩ := hfi.symm
      rw [this, h1 fi.1 fi.2]
      exact sortStr_nodup (diffAt_nodup items fi.1)
    · rw [List.pairwise_iff_get]
      intro fi fj hij a ha hb
      have ha2 : a ∈ L0.get ⟨fi.1, fi.2⟩ := ha
      have hb2 : a ∈ L0.get ⟨fj.1, fj.2⟩ := hb
      rw [h1 fi.1 fi.2, sortStr_mem] at ha2
      rw [h1 fj.1 fj.2, sortStr_mem] at hb2
      exact diffAt_disjoint hij ha2 hb2
  exact perm_of_nodup_mem_iff hndJ hnd hmemJ

theorem claim_C4_witness :
    ∃ L, levels [(⟨some "A", "r", "a", []⟩ : Item)] = .ok L ∧
      L.flatten.Perm (([(⟨some "A", "r", "a", []⟩ : Item)]).map nameOf) :=
  claim_C4_partition _ (by decide) (by decide)
    (fun v h => by
      have hnoedge : ∀ u w, ¬ edgeR [(⟨some "A", "r", "a", []⟩ : Item)] u w := by
        rintro u w ⟨it, hit, _, hd⟩
        rw [List.mem_singleton] at hit
        subst hit
        exact absurd hd (List.not_mem_nil u)
      cases h with
      | single e => exact hnoedge _ _ e
      | tail _ e => exact hnoedge _ _ e)

/-- C5: for every item list on which `levels` succeeds and every permutation
of that list, `levels` on the permuted list returns exactly the same level
sequence. -/
theorem claim_C5_order_independence (items items' : List Item) (L : List (List String))
    (hperm : items.Perm items') (hok : levels items = .ok L) :
    levels items' = .ok L := by
  have HR := HR_of_levels_ok hok
  have HR' : ∀ it ∈ items', ∀ d ∈ it.deps, d ∈ items'.map nameOf := by
    intro it hit d hd
    exact (hperm.map nameOf).mem_iff.mp (HR it (hperm.mem_iff.mpr hit) d hd)
  obtain ⟨h1, h2, h3, hfix, hall⟩ := levels_ok_char items hok
  obtain ⟨L1, g1, g2, g3, gfix, gsucc, gcyc⟩ := levels_char items' HR'
  have hdne : ∀ j, (∃ x, x ∈ diffAt items j) ↔ (∃ x, x ∈ diffAt items' j) := by
    intro j
    constructor
    · rintro ⟨x, hx⟩
      exact ⟨x, (diff_mem_perm hperm j x).mp hx⟩
    · rintro ⟨x, hx⟩
      exact ⟨x, (diff_mem_perm hperm j x).mpr hx⟩
  have hlen : L1.length = L.length := by
    rcases Nat.lt_trichotomy L1.length L.length with h | h | h
    · exfalso
      have hne := h3 L1.length h
      rw [h1 L1.length h] at hne
      have hdni : diffAt items L1.length ≠ [] := by
        intro hc
        rw [hc] at hne
        exact hne rfl
      have hd1 : ∃ x, x ∈ diffAt items' L1.length :=
        (hdne _).mp (List.exists_mem_of_ne_nil _ hdni)
      exact absurd (g2 L1.length hd1) (by omega)
    · exact h
    · exfalso
      have hne := g3 L.length h
      rw [g1 L.length h] at hne
      have hdni : diffAt items' L.length ≠ [] := by
        intro hc
        rw [hc] at hne
        exact hne rfl
      have hd1 : ∃ x, x ∈ diffAt items L.length :=
        (hdne _).mpr (List.exists_mem_of_ne_nil _ hdni)
      exact absurd (h2 L.length hd1) (by omega)
  have hext : L1 = L := by
    refine List.ext_get hlen (fun n h₁ h₂ => ?_)
    rw [g1 n h₁, h1 n h₂, diff_sort_perm hperm n]
  have hall' : ∀ n ∈ firstDedup (items'.map nameOf), n ∈ emitSet items' L1.length := by
    intro n hn
    have hn0 : n ∈ firstDedup (items.map nameOf) := (ns_mem_perm hperm n).mpr hn
    have hE := hall n hn0
    rw [hlen]
    exact (emit_mem_perm hperm L.length n).mp hE
  have hfin := gsucc hall'
  rw [hext] at hfin
  exact hfin

theorem claim_C5_witness :
    levels [⟨some "B", "r", "b", ["A"]⟩, ⟨some "A", "r", "a", []⟩,
      ⟨some "C", "r", "c", []⟩] = .ok [["A", "C"], ["B"]] :=
  claim_C5_order_independence
    [⟨some "A", "r", "a", []⟩, ⟨some "B", "r", "b", ["A"]⟩, ⟨some "C", "r", "c", []⟩]
    [⟨some "B", "r", "b", ["A"]⟩, ⟨some "A", "r", "a", []⟩, ⟨some "C", "r", "c", []⟩]
    [["A", "C"], ["B"]] (by decide) rfl

/-- C6: whenever `levels` succeeds, each returned level is sorted
lexicographically and level `i` contains exactly the resolved names whose
topological depth (longest dependency chain ending at them) is `i`; in
particular items A (no deps), B (deps [A]), C (no deps) yield
`[["A","C"],["B"]]`. -/
theorem claim_C6_sorted_levels_by_depth :
    (∀ (items : List Item) (L : List (List String)), levels items = .ok L →
      (∀ i (hi : i < L.length),
        List.Sorted (fun a b => strLeB a b = true) (L.get ⟨i, hi⟩)) ∧
      (∀ i (hi : i < L.length) (v : String),
        v ∈ L.get ⟨i, hi⟩ ↔ v ∈ items.map nameOf ∧ depthIs items v i) ∧
      (∀ (v : String) (i : Nat), v ∈ items.map nameOf → depthIs items v i →
        i < L.length)) ∧
    levels [⟨some "A", "r", "a", []⟩, ⟨some "B", "r", "b", ["A"]⟩,
      ⟨some "C", "r", "c", []⟩] = .ok [["A", "C"], ["B"]] := by
  constructor
  · intro items L hok
    have HR := HR_of_levels_ok hok
    obtain ⟨h1, h2, h3, hfix, hall⟩ := levels_ok_char items hok
    have hdiff_depth : ∀ (v : String) (i : Nat),
        v ∈ diffAt items i ↔ (v ∈ firstDedup (items.map nameOf) ∧ depthIs items v i) := by
      intro v i
      rw [mem_diffAt]
      constructor
      · rintro ⟨hvE, hvN⟩
        have hvns : v ∈ firstDedup (items.map nameOf) := emitSet_subset_names hvE
        have hbound : ∀ j, ChainTo items j v → j ≤ i := chains_le_of_emit items i v hvE
        refine ⟨hvns, ?_, hbound⟩
        rcases i with _ | i'
        · exact ChainTo.zero v
        · by_contra hnoc
          have hble : ∀ j, ChainTo items j v → j ≤ i' := by
            intro j hj
            have hji := hbound j hj
            rcases Nat.lt_or_ge j (i' + 1) with h | h
            · omega
            · have hji' : j = i' + 1 := by omega
              subst hji'
              exact absurd hj hnoc
          exact hvN (emit_of_chains_le items HR i' v hvns hble)
      · rintro ⟨hvns, hchain, hbound⟩
        refine ⟨emit_of_chains_le items HR i v hvns hbound, ?_⟩
        rcases i with _ | i'
        · simp [emitSet]
        · intro hvE
          have := chains_le_of_emit items i' v hvE _ hchain
          omega
    refine ⟨?_, ?_, ?_⟩
    · intro i hi
      rw [h1 i hi]
      exact sortStr_sorted _
    · intro i hi v
      rw [h1 i hi, sortStr_mem, hdiff_depth v i, firstDedup_mem]
    · intro v i hv hd
      have hvd : v ∈ diffAt items i := (hdiff_depth v i).mpr ⟨firstDedup_mem.mpr hv, hd⟩
      exact h2 i ⟨v, hvd⟩
  · rfl

theorem claim_C6_witness : List.Sorted (fun a b => strLeB a b = true) ["A", "C"] :=
  (claim_C6_sorted_levels_by_depth.1
    [⟨some "A", "r", "a", []⟩, ⟨some "B", "r", "b", ["A"]⟩, ⟨some "C", "r", "c", []⟩]
    [["A", "C"], ["B"]] rfl).1 0 (by decide)

/-! ## Lemmas: the fallback validator -/

/-- Inversion of a successful per-item check at the head of the list. -/
theorem collectItems_cons_ok {idx : Nat} {x : J} {rest : List J} {names : List String}
    (h : collectItems idx (x :: rest) = .ok names) :
    ∃ kvs ns, x = J.obj kvs ∧
      requiredNonEmptyStr kvs "repo" = true ∧
      requiredNonEmptyStr kvs "branch" = true ∧
      ¬(hasKey kvs "name" = true ∧ ¬ isStrOpt (getJ kvs "name") = true) ∧
      ¬(hasKey kvs "deps" = true ∧ ¬ depsFieldOk (getJ kvs "deps") = true) ∧
      gatesFieldCheck idx kvs = none ∧
      collectItems (idx + 1) rest = .ok ns ∧ names = resolvedNameJ kvs :: ns := by
  cases x with
  | obj kvs =>
    simp only [collectItems] at h
    by_cases hrepo : requiredNonEmptyStr kvs "repo" = true
    · rw [if_neg (fun hc => hc hrepo)] at h
      by_cases hbr : requiredNonEmptyStr kvs "branch" = true
      · rw [if_neg (fun hc => hc hbr)] at h
        by_cases hname : hasKey kvs "name" = true ∧ ¬ isStrOpt (getJ kvs "name") = true
        · rw [if_pos hname] at h
          cases h
        · rw [if_neg hname] at h
          by_cases hdeps : hasKey kvs "deps" = true ∧ ¬ depsFieldOk (getJ kvs "deps") = true
          · rw [if_pos hdeps] at h
            cases h
          · rw [if_neg hdeps] at h
            rcases hg : gatesFieldCheck idx kvs with _ | e
            · rw [hg] at h
              rcases hrec : collectItems (idx + 1) rest with e | ns
              · rw [hrec] at h
                cases h
              · rw [hrec] at h
                cases h
                exact ⟨kvs, ns, rfl, hrepo, hbr, hname, hdeps, hg, rfl, rfl⟩
            · rw [hg] at h
              cases h
      · rw [if_pos hbr] at h
        cases h
    · rw [if_pos hrepo] at h
      cases h
  | null => simp [collectItems] at h
  | bool b => simp [collectItems] at h
  | num n => simp [collectItems] at h
  | str s => simp [collectItems] at h
  | arr xs => simp [collectItems] at h

/-- Rebuilding the per-item loop at an object head whose checks all pass. -/
theorem collectItems_cons_obj (idx : Nat) (kvs : List (String × J)) (rest : List J)
    (hrepo : requiredNonEmptyStr kvs "repo" = true)
    (hbr : requiredNonEmptyStr kvs "branch" = true)
    (hname : ¬(hasKey kvs "name" = true ∧ ¬ isStrOpt (getJ kvs "name") = true))
    (hdeps : ¬(hasKey kvs "deps" = true ∧ ¬ depsFieldOk (getJ kvs "deps") = true))
    (hg : gatesFieldCheck idx kvs = none) :
    collectItems idx (J.obj kvs :: rest) =
      match collectItems (idx + 1) rest with
      | .error e => .error e
      | .ok ns => .ok (resolvedNameJ kvs :: ns) := by
  simp only [collectItems]
  rw [if_neg (fun hc => hc hrepo), if_neg (fun hc => hc hbr), if_neg hname, if_neg hdeps, hg]

/-- The first error of a checked prefix followed by a failing suffix. -/
theorem collectItems_error_append :
    ∀ (xs : List J) (i : Nat) (ys : List J) (ns : List String) (e : String),
      collectItems i xs = .ok ns → collectItems (i + xs.length) ys = .error e →
      collectItems i (xs ++ ys) = .error e
  | [], i, ys, ns, e, _, hys => by simpa using hys
  | x :: xs, i, ys, ns, e, hxs, hys => by
    obtain ⟨kvs, ns', hx, hrepo, hbr, hname, hdeps, hg, hrec, _⟩ := collectItems_cons_ok hxs
    subst hx
    rw [List.cons_append, collectItems_cons_obj i kvs (xs ++ ys) hrepo hbr hname hdeps hg]
    have hys' : collectItems ((i + 1) + xs.length) ys = .error e := by
      simp only [List.length_cons] at hys
      rw [show (i + 1) + xs.length = i + (xs.length + 1) from by omega]
      exact hys
    rw [collectItems_error_append xs (i + 1) ys ns' e hrec hys']

/-- A successful per-item loop returns exactly the resolved names, in order. -/
theorem collectItems_ok_names :
    ∀ (idx : Nat) (its : List J) (names : List String),
      collectItems idx its = .ok names → names = its.map resolvedOfJ
  | _, [], names, h => by
    cases h
    rfl
  | idx, x :: rest, names, h => by
    obtain ⟨kvs, ns, hx, _, _, _, _, _, hrec, hn⟩ := collectItems_cons_ok h
    subst hx
    subst hn
    rw [List.map_cons, collectItems_ok_names (idx + 1) rest ns hrec]
    rfl

/-- Unfolding `_fallback_validate` on an object with a good `target` and an
array `items`. -/
theorem fallbackValidate_obj (kvs : List (String × J)) (its : List J)
    (htarget : requiredNonEmptyStr kvs "target" = true)
    (hitems : getJ kvs "items" = some (J.arr its)) :
    fallbackValidate (J.obj kvs) =
      match collectItems 0 its with
      | .error e => (false, some e)
      | .ok names =>
        if hasDupStr names then
          (false, some "items: duplicate item names (explicit or derived)")
        else (true, none) := by
  simp only [fallbackValidate]
  rw [if_neg (fun hc => hc htarget), hitems]

theorem hasDupStr_iff : ∀ l : List String, hasDupStr l = true ↔ ¬ l.Nodup
  | [] => by simp [hasDupStr]
  | x :: xs => by
    rw [hasDupStr, List.nodup_cons, Bool.or_eq_true_iff, decide_eq_true_eq, hasDupStr_iff]
    by_cases hx : x ∈ xs <;> by_cases hnd : xs.Nodup <;> simp [hx, hnd]

theorem not_nodup_iff_get {l : List String} :
    ¬ l.Nodup ↔ ∃ i j, ∃ (hi : i < l.length) (hj : j < l.length),
      i < j ∧ l.get ⟨i, hi⟩ = l.get ⟨j, hj⟩ := by
  rw [List.Nodup, List.pairwise_iff_get]
  constructor
  · intro h
    by_contra hc
    push_neg at hc
    refine h (fun fi fj hij => ?_)
    intro heq
    exact absurd heq (hc fi.1 fj.1 fi.2 fj.2 hij)
  · rintro ⟨i, j, hi, hj, hij, heq⟩ h
    exact h ⟨i, hi⟩ ⟨j, hj⟩ hij heq

/-! ## The claims about the fallback validator -/

/-- C7: on a plan object whose target and items shape checks pass, once every
item's per-field checks have passed the validator fails with the
duplicate-names error exactly when two distinct items have equal resolved
names; and any per-field error is returned as-is, so the duplicate check only
runs after all per-item checks. -/
theorem claim_C7_duplicate_names (kvs : List (String × J)) (its : List J)
    (htarget : requiredNonEmptyStr kvs "target" = true)
    (hitems : getJ kvs "items" = some (J.arr its)) :
    (∀ names, collectItems 0 its = .ok names →
      (fallbackValidate (J.obj kvs) =
          (false, some "items: duplicate item names (explicit or derived)") ↔
        ∃ i j, ∃ (hi : i < its.length) (hj : j < its.length), i < j ∧
          resolvedOfJ (its.get ⟨i, hi⟩) = resolvedOfJ (its.get ⟨j, hj⟩))) ∧
    (∀ e, collectItems 0 its = .error e →
      fallbackValidate (J.obj kvs) = (false, some e)) := by
  constructor
  · intro names hcollect
    rw [fallbackValidate_obj kvs its htarget hitems, hcollect]
    have hnames := collectItems_ok_names 0 its names hcollect
    subst hnames
    have hdup_iff : hasDupStr (its.map resolvedOfJ) = true ↔
        ∃ i j, ∃ (hi : i < its.length) (hj : j < its.length), i < j ∧
          resolvedOfJ (its.get ⟨i, hi⟩) = resolvedOfJ (its.get ⟨j, hj⟩) := by
      rw [hasDupStr_iff, not_nodup_iff_get]
      constructor
      · rintro ⟨i, j, hi, hj, hij, heq⟩
        rw [List.get_map, List.get_map] at heq
        exact ⟨i, j, by simpa using hi, by simpa using hj, hij, heq⟩
      · rintro ⟨i, j, hi, hj, hij, heq⟩
        refine ⟨i, j, by simpa using hi, by simpa using hj, hij, ?_⟩
        rw [List.get_map, List.get_map]
        exact heq
    constructor
    · intro hval
      by_cases hdup : hasDupStr (its.map resolvedOfJ) = true
      · exact hdup_iff.mp hdup
      · exfalso
        have hval' : (if hasDupStr (its.map resolvedOfJ) = true then
              ((false : Bool), some "items: duplicate item names (explicit or derived)")
            else ((true : Bool), (none : Option String))) =
            (false, some "items: duplicate item names (explicit or derived)") := hval
        rw [if_neg hdup] at hval'
        simp at hval'
    · intro hex
      show (if hasDupStr (its.map resolvedOfJ) = true then
          ((false : Bool), some "items: duplicate item names (explicit or derived)")
        else ((true : Bool), (none : Option String))) =
        (false, some "items: duplicate item names (explicit or derived)")
      rw [if_pos (hdup_iff.mpr hex)]
  · intro e herr
    rw [fallbackValidate_obj kvs its htarget hitems, herr]

theorem claim_C7_witness :
    fallbackValidate (J.obj [("target", J.str "t"),
      ("items", J.arr [J.obj [("repo", J.str "r"), ("branch", J.str "b")],
        J.obj [("repo", J.str "r"), ("branch", J.str "b")]])]) =
      (false, some "items: duplicate item names (explicit or derived)") :=
  ((claim_C7_duplicate_names
    [("target", J.str "t"),
      ("items", J.arr [J.obj [("repo", J.str "r"), ("branch", J.str "b")],
        J.obj [("repo", J.str "r"), ("branch", J.str "b")]])]
    [J.obj [("repo", J.str "r"), ("branch", J.str "b")],
      J.obj [("repo", J.str "r"), ("branch", J.str "b")]]
    (by decide) rfl).1 ["r@b", "r@b"] rfl).mpr
    ⟨0, 1, by decide, by decide, by decide, by decide⟩

/-- C8 as stated is false: if the item at `idx` also lacks `repo` (checked
before `branch`), the reported error names `repo`, not `branch`.  Concrete
refutation: `{target: "t", items: [{}]}` satisfies the claim's premises
(item 0 lacks `branch`; `target` and all earlier items are valid) yet the
validator reports the `repo` error. -/
theorem claim_C8_counterexample :
    fallbackValidate (J.obj [("target", J.str "t"), ("items", J.arr [J.obj []])]) =
      (false, some "items/0/repo: required non-empty string") ∧
    some "items/0/repo: required non-empty string" ≠
      some "items/0/branch: required non-empty string" := by
  constructor
  · rfl
  · decide

/-- C8 (amended): if additionally item `idx` is an object whose `repo` field
is a valid non-empty string, a missing/non-string/blank `branch` yields
exactly the error `items/<idx>/branch: required non-empty string`. -/
theorem claim_C8_missing_branch_error (kvs : List (String × J)) (its : List J)
    (idx : Nat) (pre : List String) (ikvs : List (String × J))
    (htarget : requiredNonEmptyStr kvs "target" = true)
    (hitems : getJ kvs "items" = some (J.arr its))
    (hpre : collectItems 0 (its.take idx) = .ok pre)
    (hidx : idx < its.length)
    (hit : its.get ⟨idx, hidx⟩ = J.obj ikvs)
    (hrepo : requiredNonEmptyStr ikvs "repo" = true)
    (hbranch : requiredNonEmptyStr ikvs "branch" = false) :
    fallbackValidate (J.obj kvs) =
      (false, some ("items/" ++ toString idx ++ "/branch: required non-empty string")) := by
  rw [fallbackValidate_obj kvs its htarget hitems]
  have hsplit : its = its.take idx ++ its.get ⟨idx, hidx⟩ :: its.drop (idx + 1) := by
    rw [List.get_eq_getElem, ← List.drop_eq_getElem_cons hidx, List.take_append_drop]
  have hhead : collectItems (0 + (its.take idx).length) (its.get ⟨idx, hidx⟩ :: its.drop (idx + 1)) =
      .error ("items/" ++ toString idx ++ "/branch: required non-empty string") := by
    rw [hit]
    have hlen : (its.take idx).length = idx := by
      rw [List.length_take]
      omega
    rw [Nat.zero_add, hlen]
    simp only [collectItems]
    rw [if_neg (fun hc => hc hrepo), if_pos (by rw [hbranch]; exact fun hc => by cases hc)]
  have := collectItems_error_append (its.take idx) 0
    (its.get ⟨idx, hidx⟩ :: its.drop (idx + 1)) pre _ hpre hhead
  rw [← hsplit] at this
  rw [this]

theorem claim_C8_witness :
    fallbackValidate (J.obj [("target", J.str "t"),
      ("items", J.arr [J.obj [("repo", J.str "r")]])]) =
      (false, some ("items/" ++ toString 0 ++ "/branch: required non-empty string")) :=
  claim_C8_missing_branch_error
    [("target", J.str "t"), ("items", J.arr [J.obj [("repo", J.str "r")]])]
    [J.obj [("repo", J.str "r")]] 0 [] [("repo", J.str "r")]
    (by decide) rfl rfl (by decide) rfl (by decide) (by decide)

/-- C9: an empty-string `name` is treated like an absent name everywhere: the
engine's `_name_of` derives `repo@branch`, the fallback validator's duplicate
check resolves the same item identity, the name type check accepts the empty
string, and a plan whose item carries `name: ""` validates. -/
theorem claim_C9_empty_name_derived :
    (∀ (repo branch : String) (deps : List String),
      nameOf ⟨some "", repo, branch, deps⟩ = repo ++ "@" ++ branch) ∧
    (∀ kvs : List (String × J), getJ kvs "name" = some (J.str "") →
      isStrOpt (getJ kvs "name") = true ∧
      resolvedNameJ kvs =
        (match getJ kvs "repo" with | some (J.str s) => s | _ => "") ++ "@" ++
        (match getJ kvs "branch" with | some (J.str s) => s | _ => "")) ∧
    fallbackValidate (J.obj [("target", J.str "t"),
      ("items", J.arr [J.obj [("repo", J.str "r"), ("branch", J.str "b"),
        ("name", J.str "")]])]) = (true, none) := by
  refine ⟨fun repo branch deps => rfl, fun kvs h => ⟨?_, ?_⟩, rfl⟩
  · rw [h]
    rfl
  · unfold resolvedNameJ
    rw [h]
    rfl

theorem claim_C9_witness : nameOf ⟨some "", "r", "b", []⟩ = "r" ++ "@" ++ "b" :=
  claim_C9_empty_name_derived.1 "r" "b" []

/-- C10 as stated is false: a blank dep elsewhere in the document does not
force the deps error message when an earlier check fails first.  Concrete
refutation: a plan with a blank `target` and an item whose `deps` contain
`" "` reports the `target` error. -/
theorem claim_C10_counterexample :
    fallbackValidate (J.obj [("target", J.str ""),
      ("items", J.arr [J.obj [("repo", J.str "r"), ("branch", J.str "b"),
        ("deps", J.arr [J.str " "])]])]) =
      (false, some "target: required non-empty string") ∧
    some "target: required non-empty string" ≠
      some "items/0/deps: expected array of strings" := by
  constructor
  · rfl
  · decide

/-- C10 (amended): when all checks before the `deps` check of item `idx` pass
(valid target, items array, earlier items valid, the item an object with
valid `repo`, `branch` and `name`), a `deps` list containing an empty or
whitespace-only string yields `items/<idx>/deps: expected array of strings`.
The check therefore rejects blank dep names, not only non-arrays and
non-string elements. -/
theorem claim_C10_blank_dep_rejected (kvs : List (String × J)) (its : List J)
    (idx : Nat) (pre : List String) (ikvs : List (String × J)) (ds : List J)
    (htarget : requiredNonEmptyStr kvs "target" = true)
    (hitems : getJ kvs "items" = some (J.arr its))
    (hpre : collectItems 0 (its.take idx) = .ok pre)
    (hidx : idx < its.length)
    (hit : its.get ⟨idx, hidx⟩ = J.obj ikvs)
    (hrepo : requiredNonEmptyStr ikvs "repo" = true)
    (hbranch : requiredNonEmptyStr ikvs "branch" = true)
    (hname : ¬(hasKey ikvs "name" = true ∧ ¬ isStrOpt (getJ ikvs "name") = true))
    (hdeps : getJ ikvs "deps" = some (J.arr ds))
    (hblank : ∃ s, J.str s ∈ ds ∧ blankStr s = true) :
    fallbackValidate (J.obj kvs) =
      (false, some ("items/" ++ toString idx ++ "/deps: expected array of strings")) := by
  rw [fallbackValidate_obj kvs its htarget hitems]
  have hdepsBad : depsFieldOk (getJ ikvs "deps") = false := by
    rw [hdeps]
    unfold depsFieldOk
    rw [Bool.eq_false_iff, Ne, List.all_eq_true]
    intro hall
    obtain ⟨s, hs, hb⟩ := hblank
    have := hall (J.str s) hs
    simp only at this
    rw [hb] at this
    cases this
  have hsplit : its = its.take idx ++ its.get ⟨idx, hidx⟩ :: its.drop (idx + 1) := by
    rw [List.get_eq_getElem, ← List.drop_eq_getElem_cons hidx, List.take_append_drop]
  have hhead : collectItems (0 + (its.take idx).length) (its.get ⟨idx, hidx⟩ :: its.drop (idx + 1)) =
      .error ("items/" ++ toString idx ++ "/deps: expected array of strings") := by
    rw [hit]
    have hlen : (its.take idx).length = idx := by
      rw [List.length_take]
      omega
    rw [Nat.zero_add, hlen]
    simp only [collectItems]
    rw [if_neg (fun hc => hc hrepo), if_neg (fun hc => hc hbranch), if_neg hname,
      if_pos ⟨by rw [hasKey, hdeps]; rfl, by rw [hdepsBad]; exact fun hc => by cases hc⟩]
  have := collectItems_error_append (its.take idx) 0
    (its.get ⟨idx, hidx⟩ :: its.drop (idx + 1)) pre _ hpre hhead
  rw [← hsplit] at this
  rw [this]

theorem claim_C10_witness :
    fallbackValidate (J.obj [("target", J.str "t"),
      ("items", J.arr [J.obj [("repo", J.str "r"), ("branch", J.str "b"),
        ("deps", J.arr [J.str " "])]])]) =
      (false, some ("items/" ++ toString 0 ++ "/deps: expected array of strings")) :=
  claim_C10_blank_dep_rejected
    [("target", J.str "t"), ("items", J.arr [J.obj [("repo", J.str "r"),
      ("branch", J.str "b"), ("deps", J.arr [J.str " "])]])]
    [J.obj [("repo", J.str "r"), ("branch", J.str "b"), ("deps", J.arr [J.str " "])]]
    0 [] [("repo", J.str "r"), ("branch", J.str "b"), ("deps", J.arr [J.str " "])]
    [J.str " "]
    (by decide) rfl rfl (by decide) rfl (by decide) (by decide)
    (by rintro ⟨h1, _⟩; cases h1) rfl
    ⟨" ", List.mem_singleton.mpr rfl, by decide⟩
